import Mathlib

/-!
Verification of the `ServerCapabilities` store of pyirc
(`src/pyirc/server_capabilities.py`).

The store keeps one private backing attribute per IRC ISUPPORT capability;
each property setter parses the raw string value, validates it (possibly
against other fields) and only then assigns the backing attribute.  We embed
the store as a Lean structure in which every backing attribute is an
`Option` (`none` = the instance attribute is absent, so the class-level
default is visible through the getter), and each property setter as a pure
function `State → String → State × Option CapError`, returning the
post-call state together with the raised exception, if any.

Character sets (`frozenset(iter(string))` in the source) are embedded as
strictly sorted, duplicate-free `List Char` values (a canonical
representative of the finite set); dictionaries keyed by frozensets are
association lists built with Python's insert-or-overwrite semantics.
-/

namespace Pyirc

/-- Whitespace characters stripped by Python's `str.strip()` / `int()`. -/
def isPySpace (c : Char) : Bool :=
  c = ' ' || c = '\t' || c = '\n' || c = '\r' || c = '\x0b' || c = '\x0c'

/-- Python `str.strip()` on a character list. -/
def stripChars (l : List Char) : List Char :=
  ((l.dropWhile isPySpace).reverse.dropWhile isPySpace).reverse

/-- Python `str.split(sep)` for a one-character separator: splits the list at
every occurrence of `c`, keeping empty pieces (`"".split(',') == ['']`). -/
def splitOnChar (c : Char) : List Char → List (List Char)
  | [] => [[]]
  | x :: xs =>
    match splitOnChar c xs with
    | [] => [[]]
    | h :: t => if x = c then [] :: h :: t else (x :: h) :: t

/-- Python `sep.join(parts)` for a one-character separator. -/
def joinChar (c : Char) : List (List Char) → List Char
  | [] => []
  | [p] => p
  | p :: ps => p ++ c :: joinChar c ps

/-- Insert a character into a strictly sorted list, ignoring duplicates. -/
def insertCS (c : Char) : List Char → List Char
  | [] => [c]
  | x :: xs =>
    if c < x then c :: x :: xs
    else if c = x then x :: xs
    else x :: insertCS c xs

/-- Canonical representative of `frozenset(iter(l))`: the strictly sorted,
duplicate-free list of the characters of `l`. -/
def canonize : List Char → List Char
  | [] => []
  | x :: xs => insertCS x (canonize xs)

/-- Decimal digit value of a digit character. -/
def digitVal (c : Char) : Nat := c.toNat - 48

/-- Parse a non-empty all-digit character list as a natural number. -/
def parseNatChars (l : List Char) : Option Nat :=
  if l ≠ [] ∧ l.all (fun c => c.isDigit) then
    some (l.foldl (fun a c => 10 * a + digitVal c) 0)
  else none

/-- Python 2 `int(string)`: strip whitespace, optional sign, base-10 digits
(`parseNatChars []` is `none`, so a bare sign or empty string fails). -/
def pyIntChars (l : List Char) : Option Int :=
  match stripChars l with
  | [] => none
  | c :: ds =>
    if c = '-' then (parseNatChars ds).map (fun m => -(m : Int))
    else if c = '+' then (parseNatChars ds).map (fun m => (m : Int))
    else (parseNatChars (c :: ds)).map (fun m => (m : Int))

/-- Python 2 `int(string)` on a `String`. -/
def pyInt (s : String) : Option Int := pyIntChars s.toList

/-- Decimal digit characters of `n`, most significant first; `fuel` bounds
the recursion (any `fuel` with `n < 10 ^ fuel` is enough). -/
def natChars (fuel n : Nat) : List Char :=
  match fuel with
  | 0 => []
  | f + 1 =>
    if n < 10 then [Nat.digitChar n]
    else natChars f (n / 10) ++ [Nat.digitChar (n % 10)]

/-- Python `'%d' % n` for an integer `n`. -/
def intChars (n : Int) : List Char :=
  if n < 0 then '-' :: natChars (n.natAbs + 1) n.natAbs
  else natChars (n.natAbs + 1) n.natAbs

/-- A character set in canonical form (see `canonize`). -/
abbrev CharSet := List Char

/-- A Python dict keyed by frozensets of characters, as an association list
in insertion order. -/
abbrev CSDict := List (CharSet × Int)

/-- One insert-or-overwrite step of Python dict construction: an existing
key keeps its position and gets the new value, a new key is appended. -/
def dictInsert (d : CSDict) (k : CharSet) (n : Int) : CSDict :=
  if d.any (fun kv => kv.1 = k) then
    d.map (fun kv => if kv.1 = k then (k, n) else kv)
  else d ++ [(k, n)]

/-- `dict(pairs)`: left-to-right insert-or-overwrite. -/
def dictOfList (es : List (CharSet × Int)) : CSDict :=
  es.foldl (fun d kv => dictInsert d kv.1 kv.2) []

/-- The exceptions a property setter or deleter of the store can raise. -/
inductive CapError where
  /-- `CapabilityValueError(cap, value)` — malformed raw value. -/
  | formatError (cap : String)
  /-- `CapabilityLogicError(...)` — value contradicts other accepted caps. -/
  | logicError (cap : String)
  /-- `NotImplementedError(...)` — valid but unsupported value. -/
  | unsupportedError
  /-- `AttributeError` from `delattr` on an absent instance attribute. -/
  | attributeError (attr : String)
  deriving DecidableEq, Repr

/-- Is this exception a `CapabilityLogicError`? -/
def CapError.isLogicError : CapError → Bool
  | .logicError _ => true
  | _ => false

/-- The four CHANMODES groups: `(List, ParamAlways, ParamAddOnly, NoParam)`,
i.e. the dict `{0: ..., 1: ..., 2: ..., 3: ...}` built by the source. -/
abbrev ChanModes := CharSet × CharSet × CharSet × CharSet

/--
The `ServerCapabilities` instance state.  Each field is the private backing
attribute of the corresponding Python property; `none` means the instance
attribute is absent, so `getattr` falls through to the class-level default
(`'ascii'`, `None`, `200`, `frozenset(('#', '&'))`, ...).  For `_channellen`
and `_kicklen` the setter can itself store Python `None` (unlimited), hence
the nested `Option`.
-/
structure ServerCapabilities where
  _casemapping : Option String := none
  _chanlimit : Option CSDict := none
  _chanmodes : Option ChanModes := none
  _channellen : Option (Option Int) := none
  _chantypes : Option CharSet := none
  _excepts : Option String := none
  _invex : Option String := none
  _kicklen : Option (Option Int) := none
  _maxlist : Option CSDict := none
  deriving DecidableEq, Repr

/-- A freshly constructed `ServerCapabilities()` object: the instance dict
is empty, every getter sees the class-level default. -/
def fresh : ServerCapabilities := {}

namespace ServerCapabilities

/-- Getter for CASEMAPPING (class default `'ascii'`). -/
def casemapping_get (s : ServerCapabilities) : String :=
  s._casemapping.getD "ascii"

/-- Getter for CHANLIMIT (class default `None`). -/
def chanlimit_get (s : ServerCapabilities) : Option CSDict := s._chanlimit

/-- Getter for CHANMODES (class default `None`). -/
def chanmodes_get (s : ServerCapabilities) : Option ChanModes := s._chanmodes

/-- Getter for CHANNELLEN (class default `200`). -/
def channellen_get (s : ServerCapabilities) : Option Int :=
  s._channellen.getD (some 200)

/-- Getter for CHANTYPES (class default `frozenset(('#', '&'))`). -/
def chantypes_get (s : ServerCapabilities) : CharSet :=
  s._chantypes.getD (canonize ['#', '&'])

/-- Getter for EXCEPTS (class default `None`). -/
def excepts_get (s : ServerCapabilities) : Option String := s._excepts

/-- Getter for INVEX (class default `None`). -/
def invex_get (s : ServerCapabilities) : Option String := s._invex

/-- Getter for KICKLEN (class default `None`). -/
def kicklen_get (s : ServerCapabilities) : Option Int :=
  s._kicklen.getD none

/-- Getter for MAXLIST (class default `None`). -/
def maxlist_get (s : ServerCapabilities) : Option CSDict := s._maxlist

end ServerCapabilities

open ServerCapabilities

/-- Syntactic phase of the CASEMAPPING setter: the value must be one of the
three enumerated literals. -/
def parseCasemapping (v : String) : Option String :=
  if v = "ascii" ∨ v = "rfc1459" ∨ v = "strict-rfc1459" then some v else none

/-- `CASEMAPPING` setter. -/
def casemapping_fset (s : ServerCapabilities) (v : String) :
    ServerCapabilities × Option CapError :=
  match parseCasemapping v with
  | none => (s, some (.formatError "CASEMAPPING"))
  | some w =>
    if w ≠ "ascii" then (s, some .unsupportedError)
    else ({ s with _casemapping := some w }, none)

/-- One CHANLIMIT entry: `l.strip().split(':')` unpacked as `pfx, num`,
then `(frozenset(pfx), int(num))`. -/
def parseLimitEntry (e : List Char) : Option (CharSet × Int) :=
  match splitOnChar ':' (stripChars e) with
  | [pfx, num] => (pyIntChars num).map (fun n => (canonize pfx, n))
  | _ => none

/-- Syntactic phase of the CHANLIMIT setter: `v.strip().split(',')`, one
`parseLimitEntry` per piece; `none` is the `ValueError` caught there. -/
def parseChanlimitEntries (v : String) : Option (List (CharSet × Int)) :=
  (splitOnChar ',' (stripChars v.toList)).mapM parseLimitEntry

/-- `CHANLIMIT` setter.  (`v = v or ''` is the identity on strings.)  The
source raises `CapabilityLogicError` on the first dict key that is not a
subset of CHANTYPES; since nothing is mutated before, that is the same as
the `List.all` test below. -/
def chanlimit_fset (s : ServerCapabilities) (v : String) :
    ServerCapabilities × Option CapError :=
  match parseChanlimitEntries v with
  | none => (s, some (.formatError "CHANLIMIT"))
  | some es =>
    let limits := dictOfList es
    if limits = [] then (s, some (.formatError "CHANLIMIT"))
    else
      let chantypes := s.chantypes_get
      if limits.all (fun kv => kv.1.all (fun c => decide (c ∈ chantypes))) then
        ({ s with _chanlimit := some limits }, none)
      else (s, some (.logicError "CHANLIMIT"))

/-- Syntactic phase of the CHANMODES setter:
`v.strip().split(',')[:4]`, rejected unless that is a 4-element list, each
group becoming `frozenset(iter(group))`. -/
def parseChanmodes (v : String) : Option ChanModes :=
  match (splitOnChar ',' (stripChars v.toList)).take 4 with
  | [a, b, c, d] => some (canonize a, canonize b, canonize c, canonize d)
  | _ => none

/-- Syntactic phase of the CHANNELLEN / KICKLEN setters: `v = v or None`,
then `int(v)` unless `v` is `None`. -/
def parseOptInt (v : String) : Option (Option Int) :=
  if v = "" then some none else (pyInt v).map some

/-- `CHANNELLEN` setter. -/
def channellen_fset (s : ServerCapabilities) (v : String) :
    ServerCapabilities × Option CapError :=
  match parseOptInt v with
  | none => (s, some (.formatError "CHANNELLEN"))
  | some n => ({ s with _channellen := some n }, none)

/-- `KICKLEN` setter. -/
def kicklen_fset (s : ServerCapabilities) (v : String) :
    ServerCapabilities × Option CapError :=
  match parseOptInt v with
  | none => (s, some (.formatError "KICKLEN"))
  | some n => ({ s with _kicklen := some n }, none)

/-- Python `t == prefixes` where `t` is a character of the CHANTYPES
frozenset and `prefixes` is itself a frozenset (a CHANLIMIT key): a
character never compares equal to a frozenset, so this is always false.
The source's `prefixes not in types` test on line 147 reduces to this
elementwise comparison. -/
def charEqSet (_t : Char) (_k : CharSet) : Bool := false

/-- `CHANTYPES` setter.  (`v = v or ''` is the identity on strings.)  The
source raises on the first CHANLIMIT key `prefixes` with
`prefixes not in types`; nothing is mutated before, so this is the
`List.all` test below. -/
def chantypes_fset (s : ServerCapabilities) (v : String) :
    ServerCapabilities × Option CapError :=
  let types := canonize v.toList
  match s.chanlimit_get with
  | none => ({ s with _chantypes := some types }, none)
  | some limits =>
    if limits.isEmpty then ({ s with _chantypes := some types }, none)
    else if limits.all (fun kv => types.any (fun t => charEqSet t kv.1)) then
      ({ s with _chantypes := some types }, none)
    else (s, some (.logicError "CHANTYPES"))

/-- Syntactic phase of the EXCEPTS / INVEX setters: `v = v or dflt`, then
the length-1 check. -/
def parseFlag (dflt : String) (v : String) : Option String :=
  let w := if v = "" then dflt else v
  if w.length = 1 then some w else none

/-- Python `v in frozenset(iter(x))` for a string `v`: true exactly when
`v` is a one-character string whose character occurs in the set. -/
def memFlag (v : String) (k : CharSet) : Bool :=
  match v.toList with
  | [c] => decide (c ∈ k)
  | _ => false

/-- `EXCEPTS` setter. -/
def excepts_fset (s : ServerCapabilities) (v : String) :
    ServerCapabilities × Option CapError :=
  match parseFlag "e" v with
  | none => (s, some (.formatError "EXCEPTS"))
  | some w =>
    match s.chanmodes_get with
    | some m =>
      if memFlag w m.1 then ({ s with _excepts := some w }, none)
      else (s, some (.logicError "EXCEPTS"))
    | none => ({ s with _excepts := some w }, none)

/-- `INVEX` setter. -/
def invex_fset (s : ServerCapabilities) (v : String) :
    ServerCapabilities × Option CapError :=
  match parseFlag "I" v with
  | none => (s, some (.formatError "INVEX"))
  | some w =>
    match s.chanmodes_get with
    | some m =>
      if memFlag w m.1 then ({ s with _invex := some w }, none)
      else (s, some (.logicError "INVEX"))
    | none => ({ s with _invex := some w }, none)

/-- One MAXLIST entry: `l.split(':')` (no strip) unpacked as `f, l`, then
`(frozenset(iter(f)), int(l))`. -/
def parseMaxlistEntry (e : List Char) : Option (CharSet × Int) :=
  match splitOnChar ':' e with
  | [f, num] => (pyIntChars num).map (fun n => (canonize f, n))
  | _ => none

/-- Syntactic phase of the MAXLIST setter: `v.split(',')`, one
`parseMaxlistEntry` per piece; `none` is the `ValueError` caught there. -/
def parseMaxlistEntries (v : String) : Option (List (CharSet × Int)) :=
  (splitOnChar ',' v.toList).mapM parseMaxlistEntry

/-- `max = set(); for flags in v.keys(): max.update(flags)`. -/
def unionKeys (d : CSDict) : List Char :=
  d.foldl (fun a kv => a ++ kv.1) []

/-- Python `==` on two sets given by character lists. -/
def isSetEq (a b : List Char) : Bool :=
  a.all (fun c => decide (c ∈ b)) && b.all (fun c => decide (c ∈ a))

/-- `MAXLIST` setter. -/
def maxlist_fset (s : ServerCapabilities) (v : String) :
    ServerCapabilities × Option CapError :=
  if v = "" then (s, some (.formatError "MAXLIST"))
  else
    match parseMaxlistEntries v with
    | none => (s, some (.formatError "MAXLIST"))
    | some es =>
      let d := dictOfList es
      match s.chanmodes_get with
      | some m =>
        if isSetEq (unionKeys d) m.1 then ({ s with _maxlist := some d }, none)
        else (s, some (.logicError "MAXLIST"))
      | none => ({ s with _maxlist := some d }, none)

/-- `','.join('%s:%d' % (''.join(k), v) for k, v in maxlist.iteritems())`.
Python iterates the dict and each frozenset in an unspecified order; we
iterate the association list in storage order and each canonical key in its
sorted order (one fixed refinement of the source's arbitrary orders). -/
def serializeMaxlist (d : CSDict) : List Char :=
  joinChar ',' (d.map (fun kv => kv.1 ++ ':' :: intChars kv.2))

/-- Sequencing of two Python statements: run the second only if the first
raised nothing (an exception aborts the rest of the `try` block). -/
def pySeq (r : ServerCapabilities × Option CapError)
    (f : ServerCapabilities → ServerCapabilities × Option CapError) :
    ServerCapabilities × Option CapError :=
  match r with
  | (s1, some err) => (s1, some err)
  | (s1, none) => f s1

/-- `if self.excepts: self.excepts = self.excepts` (a `None` or empty
string is falsy). -/
def revalidateExcepts (s : ServerCapabilities) :
    ServerCapabilities × Option CapError :=
  match s.excepts_get with
  | some e => if e ≠ "" then excepts_fset s e else (s, none)
  | none => (s, none)

/-- `if self.invex: self.invex = self.invex`. -/
def revalidateInvex (s : ServerCapabilities) :
    ServerCapabilities × Option CapError :=
  match s.invex_get with
  | some i => if i ≠ "" then invex_fset s i else (s, none)
  | none => (s, none)

/-- `if self.maxlist: self.maxlist = ','.join(...)` (`None` or an empty
dict is falsy). -/
def revalidateMaxlist (s : ServerCapabilities) :
    ServerCapabilities × Option CapError :=
  match s.maxlist_get with
  | some d =>
    if ¬ d.isEmpty then maxlist_fset s (String.mk (serializeMaxlist d))
    else (s, none)
  | none => (s, none)

/-- The dependent-capability re-validation block of the CHANMODES setter:
`if self.excepts: self.excepts = self.excepts`, then the same for INVEX,
then MAXLIST re-serialized and re-assigned; the first exception aborts. -/
def revalidateDeps (s : ServerCapabilities) :
    ServerCapabilities × Option CapError :=
  pySeq (pySeq (revalidateExcepts s) revalidateInvex) revalidateMaxlist

/-- `CHANMODES` setter: parse, tentatively assign, re-validate the dependent
capabilities, and roll `_chanmodes` back if that raised a
`CapabilityLogicError` (only that exception class is caught). -/
def chanmodes_fset (s : ServerCapabilities) (v : String) :
    ServerCapabilities × Option CapError :=
  match parseChanmodes v with
  | none => (s, some (.formatError "CHANMODES"))
  | some m =>
    let oldmodes := s._chanmodes
    let s1 := { s with _chanmodes := some m }
    match revalidateDeps s1 with
    | (s2, none) => (s2, none)
    | (s2, some err) =>
      if err.isLogicError then ({ s2 with _chanmodes := oldmodes }, some err)
      else (s2, some err)

/-- `del store.casemapping`: `delattr` on the backing attribute, an
`AttributeError` if the instance attribute is absent. -/
def casemapping_fdel (s : ServerCapabilities) :
    ServerCapabilities × Option CapError :=
  match s._casemapping with
  | none => (s, some (.attributeError "_casemapping"))
  | some _ => ({ s with _casemapping := none }, none)

/-- `del store.channellen` (the `withdel` default deleter). -/
def channellen_fdel (s : ServerCapabilities) :
    ServerCapabilities × Option CapError :=
  match s._channellen with
  | none => (s, some (.attributeError "_channellen"))
  | some _ => ({ s with _channellen := none }, none)

/-- `del store.chantypes` (the `withdel` default deleter). -/
def chantypes_fdel (s : ServerCapabilities) :
    ServerCapabilities × Option CapError :=
  match s._chantypes with
  | none => (s, some (.attributeError "_chantypes"))
  | some _ => ({ s with _chantypes := none }, none)

/-- `del store.excepts` (the `withdel` default deleter). -/
def excepts_fdel (s : ServerCapabilities) :
    ServerCapabilities × Option CapError :=
  match s._excepts with
  | none => (s, some (.attributeError "_excepts"))
  | some _ => ({ s with _excepts := none }, none)

/-- `del store.invex` (the `withdel` default deleter). -/
def invex_fdel (s : ServerCapabilities) :
    ServerCapabilities × Option CapError :=
  match s._invex with
  | none => (s, some (.attributeError "_invex"))
  | some _ => ({ s with _invex := none }, none)

/-- Well-formedness of a stored CHANLIMIT / MAXLIST dict: non-empty,
duplicate-free keys, every key a canonical character set containing neither
`':'` nor `','`.  Every dict the setters can store has this shape. -/
def WFdictb (d : CSDict) : Bool :=
  !d.isEmpty &&
  decide ((d.map Prod.fst).Nodup) &&
  d.all (fun kv =>
    decide (List.Chain' (· < ·) kv.1) &&
    kv.1.all (fun c => decide (c ≠ ':') && decide (c ≠ ',')))

/-- Well-formedness of a store state: every backing attribute holds a value
of the shape its own setter can produce. -/
def WFb (s : ServerCapabilities) : Bool :=
  (match s._casemapping with | some c => decide (c = "ascii") | none => true) &&
  (match s._chanlimit with | some d => WFdictb d | none => true) &&
  (match s._excepts with | some e => decide (e.length = 1) | none => true) &&
  (match s._invex with | some i => decide (i.length = 1) | none => true) &&
  (match s._maxlist with | some d => WFdictb d | none => true)

/-- The cross-field invariants I2, I3, I4 of the spec: when CHANMODES is
set, EXCEPTS and INVEX are A-type flags and the MAXLIST keys cover exactly
the A-type flags. -/
def Invb (s : ServerCapabilities) : Bool :=
  match s._chanmodes with
  | none => true
  | some m =>
    (match s._excepts with | some e => memFlag e m.1 | none => true) &&
    (match s._invex with | some i => memFlag i m.1 | none => true) &&
    (match s._maxlist with | some d => isSetEq (unionKeys d) m.1 | none => true)

/-- The store states an API client can produce: the fresh object followed by
any sequence of property assignments and deletions (whether they raised or
not — a raising call still leaves a state behind). -/
inductive Reachable : ServerCapabilities → Prop where
  | init : Reachable fresh
  | set_casemapping {s v} : Reachable s → Reachable (casemapping_fset s v).1
  | set_chanlimit {s v} : Reachable s → Reachable (chanlimit_fset s v).1
  | set_chanmodes {s v} : Reachable s → Reachable (chanmodes_fset s v).1
  | set_channellen {s v} : Reachable s → Reachable (channellen_fset s v).1
  | set_chantypes {s v} : Reachable s → Reachable (chantypes_fset s v).1
  | set_excepts {s v} : Reachable s → Reachable (excepts_fset s v).1
  | set_invex {s v} : Reachable s → Reachable (invex_fset s v).1
  | set_kicklen {s v} : Reachable s → Reachable (kicklen_fset s v).1
  | set_maxlist {s v} : Reachable s → Reachable (maxlist_fset s v).1
  | del_casemapping {s} : Reachable s → Reachable (casemapping_fdel s).1
  | del_channellen {s} : Reachable s → Reachable (channellen_fdel s).1
  | del_chantypes {s} : Reachable s → Reachable (chantypes_fdel s).1
  | del_excepts {s} : Reachable s → Reachable (excepts_fdel s).1
  | del_invex {s} : Reachable s → Reachable (invex_fdel s).1

/-! ## Properties of the character-list utilities -/

theorem splitOnChar_ne_nil (c : Char) (l : List Char) :
    splitOnChar c l ≠ [] := by
  induction l with
  | nil => simp [splitOnChar]
  | cons x xs ih =>
    simp only [splitOnChar]
    cases hs : splitOnChar c xs with
    | nil => simp
    | cons h t => dsimp only; split <;> simp

theorem mem_splitOnChar_not_mem {c : Char} {l p : List Char}
    (hp : p ∈ splitOnChar c l) : c ∉ p := by
  induction l generalizing p with
  | nil =>
    simp only [splitOnChar, List.mem_singleton] at hp
    subst hp; simp
  | cons x xs ih =>
    simp only [splitOnChar] at hp
    cases hs : splitOnChar c xs with
    | nil => exact absurd hs (splitOnChar_ne_nil c xs)
    | cons h t =>
      rw [hs] at hp
      have hh : h ∈ splitOnChar c xs := by rw [hs]; exact List.mem_cons_self h t
      dsimp only at hp
      by_cases hx : x = c
      · rw [if_pos hx] at hp
        simp only [List.mem_cons] at hp
        rcases hp with hp | hp | hp
        · subst hp; simp
        · exact ih (hp ▸ hh)
        · exact ih (by rw [hs]; exact List.mem_cons_of_mem h hp)
      · rw [if_neg hx] at hp
        simp only [List.mem_cons] at hp
        rcases hp with hp | hp
        · subst hp
          intro hc
          simp only [List.mem_cons] at hc
          rcases hc with hc | hc
          · exact hx hc.symm
          · exact ih hh hc
        · exact ih (by rw [hs]; exact List.mem_cons_of_mem h hp)

theorem mem_of_mem_splitOnChar {c x : Char} {l p : List Char}
    (hp : p ∈ splitOnChar c l) (hx : x ∈ p) : x ∈ l := by
  induction l generalizing p with
  | nil =>
    simp only [splitOnChar, List.mem_singleton] at hp
    subst hp; simp at hx
  | cons y ys ih =>
    simp only [splitOnChar] at hp
    cases hs : splitOnChar c ys with
    | nil => exact absurd hs (splitOnChar_ne_nil c ys)
    | cons h t =>
      rw [hs] at hp
      have hh : h ∈ splitOnChar c ys := by rw [hs]; exact List.mem_cons_self h t
      dsimp only at hp
      by_cases hy : y = c
      · rw [if_pos hy] at hp
        simp only [List.mem_cons] at hp
        rcases hp with hp | hp | hp
        · subst hp; simp at hx
        · exact List.mem_cons_of_mem y (ih (hp ▸ hh) hx)
        · exact List.mem_cons_of_mem y
            (ih (by rw [hs]; exact List.mem_cons_of_mem h hp) hx)
      · rw [if_neg hy] at hp
        simp only [List.mem_cons] at hp
        rcases hp with hp | hp
        · subst hp
          simp only [List.mem_cons] at hx
          rcases hx with hx | hx
          · exact hx ▸ List.mem_cons_self y ys
          · exact List.mem_cons_of_mem y (ih hh hx)
        · exact List.mem_cons_of_mem y
            (ih (by rw [hs]; exact List.mem_cons_of_mem h hp) hx)

theorem splitOnChar_append_cons {c : Char} {p r : List Char} (h : c ∉ p) :
    splitOnChar c (p ++ c :: r) = p :: splitOnChar c r := by
  induction p with
  | nil =>
    simp only [List.nil_append, splitOnChar]
    cases hs : splitOnChar c r with
    | nil => exact absurd hs (splitOnChar_ne_nil c r)
    | cons a t => simp
  | cons y ys ih =>
    have hy : y ≠ c := fun hyc => h (hyc ▸ List.mem_cons_self y ys)
    have hys : c ∉ ys := fun hc => h (List.mem_cons_of_mem y hc)
    show splitOnChar c (y :: (ys ++ c :: r)) = (y :: ys) :: splitOnChar c r
    simp only [splitOnChar]
    rw [ih hys]
    dsimp only
    rw [if_neg hy]

theorem splitOnChar_eq_single {c : Char} {p : List Char} (h : c ∉ p) :
    splitOnChar c p = [p] := by
  induction p with
  | nil => simp [splitOnChar]
  | cons y ys ih =>
    have hy : y ≠ c := fun hyc => h (hyc ▸ List.mem_cons_self y ys)
    have hys : c ∉ ys := fun hc => h (List.mem_cons_of_mem y hc)
    simp only [splitOnChar, ih hys]
    rw [if_neg hy]

theorem splitOnChar_joinChar {c : Char} {parts : List (List Char)}
    (hne : parts ≠ []) (hcl : ∀ p ∈ parts, c ∉ p) :
    splitOnChar c (joinChar c parts) = parts := by
  induction parts with
  | nil => exact absurd rfl hne
  | cons p ps ih =>
    cases ps with
    | nil =>
      simp only [joinChar]
      exact splitOnChar_eq_single (hcl p (List.mem_cons_self p []))
    | cons q qs =>
      have h1 : joinChar c (p :: q :: qs) = p ++ c :: joinChar c (q :: qs) := rfl
      rw [h1, splitOnChar_append_cons (hcl p (List.mem_cons_self p _)),
        ih (by simp) (fun x hx => hcl x (List.mem_cons_of_mem p hx))]


/-! ## Properties of canonical character sets -/

theorem mem_insertCS {x c : Char} {l : List Char} :
    x ∈ insertCS c l ↔ x = c ∨ x ∈ l := by
  induction l with
  | nil => simp [insertCS]
  | cons y ys ih =>
    simp only [insertCS]
    by_cases h1 : c < y
    · rw [if_pos h1]; simp only [List.mem_cons]
    · rw [if_neg h1]
      by_cases h2 : c = y
      · rw [if_pos h2]; subst h2; simp only [List.mem_cons]; tauto
      · rw [if_neg h2]; simp only [List.mem_cons, ih]; tauto

theorem head?_insertCS (c : Char) (l : List Char) :
    (insertCS c l).head? = some c ∨ (insertCS c l).head? = l.head? := by
  cases l with
  | nil => left; rfl
  | cons y ys =>
    simp only [insertCS]
    by_cases h1 : c < y
    · rw [if_pos h1]; left; rfl
    · rw [if_neg h1]
      by_cases h2 : c = y
      · rw [if_pos h2]; right; rfl
      · rw [if_neg h2]; right; rfl

theorem chain'_insertCS {c : Char} {l : List Char}
    (hl : List.Chain' (· < ·) l) : List.Chain' (· < ·) (insertCS c l) := by
  induction l with
  | nil => simp [insertCS]
  | cons y ys ih =>
    simp only [insertCS]
    by_cases h1 : c < y
    · rw [if_pos h1]
      exact List.chain'_cons.mpr ⟨h1, hl⟩
    · rw [if_neg h1]
      by_cases h2 : c = y
      · rw [if_pos h2]; exact hl
      · rw [if_neg h2]
        have hyc : y < c := lt_of_le_of_ne (not_lt.mp h1) (Ne.symm h2)
        have htail := ih hl.tail
        rw [List.chain'_cons']
        refine ⟨?_, htail⟩
        intro h hh
        rcases head?_insertCS c ys with he | he
        · rw [he] at hh
          simp only [Option.mem_def, Option.some.injEq] at hh
          exact hh ▸ hyc
        · rw [he] at hh
          exact (List.chain'_cons'.mp hl).1 h hh

theorem chain'_canonize (l : List Char) : List.Chain' (· < ·) (canonize l) := by
  induction l with
  | nil => simp [canonize]
  | cons x xs ih => exact chain'_insertCS ih

theorem mem_canonize {x : Char} {l : List Char} :
    x ∈ canonize l ↔ x ∈ l := by
  induction l with
  | nil => simp [canonize]
  | cons y ys ih => simp [canonize, mem_insertCS, ih]

theorem canonize_eq_self {l : List Char} (h : List.Chain' (· < ·) l) :
    canonize l = l := by
  induction l with
  | nil => rfl
  | cons x xs ih =>
    have hxs := ih h.tail
    simp only [canonize, hxs]
    cases xs with
    | nil => rfl
    | cons y ys =>
      have hxy : x < y := (List.chain'_cons.mp h).1
      simp [insertCS, hxy]

/-! ## Properties of integer printing and parsing -/

theorem digitChar_isDigit {m : Nat} (h : m < 10) :
    (Nat.digitChar m).isDigit = true := by
  interval_cases m <;> rfl

theorem digitVal_digitChar {m : Nat} (h : m < 10) :
    digitVal (Nat.digitChar m) = m := by
  interval_cases m <;> rfl

theorem natChars_ne_nil (f n : Nat) : natChars (f + 1) n ≠ [] := by
  simp only [natChars]
  split <;> simp

theorem natChars_all_digit (fuel n : Nat) :
    ∀ c ∈ natChars fuel n, c.isDigit = true := by
  induction fuel generalizing n with
  | zero => simp [natChars]
  | succ f ih =>
    intro c hc
    simp only [natChars] at hc
    by_cases h : n < 10
    · rw [if_pos h] at hc
      simp only [List.mem_singleton] at hc
      subst hc
      exact digitChar_isDigit h
    · rw [if_neg h] at hc
      rcases List.mem_append.mp hc with hc | hc
      · exact ih _ c hc
      · simp only [List.mem_singleton] at hc
        subst hc
        exact digitChar_isDigit (Nat.mod_lt n (by norm_num))

theorem natChars_foldl (fuel : Nat) :
    ∀ n a, n < 10 ^ fuel → 0 < fuel →
      (natChars fuel n).foldl (fun b c => 10 * b + digitVal c) a
        = a * 10 ^ (natChars fuel n).length + n := by
  induction fuel with
  | zero => intro n a _ h0; exact absurd h0 (by simp)
  | succ f ih =>
    intro n a hn _
    simp only [natChars]
    by_cases h : n < 10
    · rw [if_pos h]
      simp [List.foldl, digitVal_digitChar h]
      ring
    · rw [if_neg h]
      have hf : 0 < f := by
        rcases Nat.eq_zero_or_pos f with h0 | h0
        · subst h0; rw [pow_one] at hn; omega
        · exact h0
      have hdiv : n / 10 < 10 ^ f := by
        rw [Nat.div_lt_iff_lt_mul (by norm_num)]
        calc n < 10 ^ (f + 1) := hn
        _ = 10 ^ f * 10 := by rw [pow_succ]
      rw [List.foldl_append, ih (n / 10) a hdiv hf]
      simp only [List.foldl_cons, List.foldl_nil, List.length_append,
        List.length_singleton, digitVal_digitChar (Nat.mod_lt n (by norm_num))]
      rw [pow_succ]
      have hmod := Nat.div_add_mod n 10
      set X := 10 ^ (natChars f (n / 10)).length with hX
      calc 10 * (a * X + n / 10) + n % 10
          = a * (X * 10) + (10 * (n / 10) + n % 10) := by ring
        _ = a * (X * 10) + n := by rw [hmod]

theorem parseNatChars_natChars (n : Nat) :
    parseNatChars (natChars (n + 1) n) = some n := by
  have hn : n < 10 ^ (n + 1) :=
    lt_of_lt_of_le (Nat.lt_pow_self (by norm_num) n)
      (Nat.pow_le_pow_right (by norm_num) (Nat.le_succ n))
  have h1 : natChars (n + 1) n ≠ [] := natChars_ne_nil n n
  have h2 : (natChars (n + 1) n).all (fun c => c.isDigit) = true := by
    rw [List.all_eq_true]
    intro c hc
    exact natChars_all_digit _ _ c hc
  rw [parseNatChars, if_pos ⟨h1, h2⟩,
    natChars_foldl (n + 1) n 0 hn (Nat.succ_pos n)]
  simp

theorem mem_intChars {c : Char} {n : Int} (h : c ∈ intChars n) :
    c = '-' ∨ c.isDigit = true := by
  unfold intChars at h
  split at h
  · rcases List.mem_cons.mp h with h | h
    · exact Or.inl h
    · exact Or.inr (natChars_all_digit _ _ c h)
  · exact Or.inr (natChars_all_digit _ _ c h)

theorem isPySpace_false_of_isDigit {c : Char} (h : c.isDigit = true) :
    isPySpace c = false := by
  by_contra hs
  have hs' : isPySpace c = true := by simpa using hs
  simp only [isPySpace, Bool.or_eq_true, decide_eq_true_eq] at hs'
  rcases hs' with ((((h1 | h1) | h1) | h1) | h1) | h1 <;>
    (subst h1; exact absurd h (by decide))

theorem dropWhile_eq_self_of_false {p : Char → Bool} {l : List Char}
    (h : ∀ c ∈ l, p c = false) : l.dropWhile p = l := by
  cases l with
  | nil => rfl
  | cons x xs =>
    rw [List.dropWhile_cons, h x (List.mem_cons_self x xs)]
    simp

theorem stripChars_eq_self {l : List Char}
    (h : ∀ c ∈ l, isPySpace c = false) : stripChars l = l := by
  unfold stripChars
  rw [dropWhile_eq_self_of_false h,
    dropWhile_eq_self_of_false (fun c hc => h c (List.mem_reverse.mp hc)),
    List.reverse_reverse]

theorem pyIntChars_intChars (n : Int) : pyIntChars (intChars n) = some n := by
  have hstrip : stripChars (intChars n) = intChars n :=
    stripChars_eq_self (fun c hc => by
      rcases mem_intChars hc with h | h
      · subst h; rfl
      · exact isPySpace_false_of_isDigit h)
  rw [pyIntChars, hstrip]
  by_cases hn : n < 0
  · have hneg : intChars n = '-' :: natChars (n.natAbs + 1) n.natAbs := by
      rw [intChars, if_pos hn]
    rw [hneg]
    have habs : ((n.natAbs : Nat) : Int) = -n := by omega
    simp [parseNatChars_natChars, habs]
  · have hpos : intChars n = natChars (n.natAbs + 1) n.natAbs := by
      rw [intChars, if_neg hn]
    rw [hpos]
    cases hnc : natChars (n.natAbs + 1) n.natAbs with
    | nil => exact absurd hnc (natChars_ne_nil _ _)
    | cons c ds =>
      have hdig : c.isDigit = true :=
        natChars_all_digit _ _ c (hnc ▸ List.mem_cons_self c ds)
      have hcm : c ≠ '-' := fun hc => by rw [hc] at hdig; exact absurd hdig (by decide)
      have hcp : c ≠ '+' := fun hc => by rw [hc] at hdig; exact absurd hdig (by decide)
      dsimp only
      rw [if_neg hcm, if_neg hcp, ← hnc, parseNatChars_natChars]
      have habs : ((n.natAbs : Nat) : Int) = n := by omega
      simp [habs]

/-! ## Properties of dict construction -/

theorem mem_dictInsert {d : CSDict} {k : CharSet} {n : Int} {kv : CharSet × Int}
    (h : kv ∈ dictInsert d k n) : kv ∈ d ∨ kv = (k, n) := by
  unfold dictInsert at h
  by_cases hc : (d.any fun x => x.1 = k) = true
  · rw [if_pos hc] at h
    rcases List.mem_map.mp h with ⟨x, hx, hxe⟩
    by_cases hxk : x.1 = k
    · right; rw [← hxe, if_pos hxk]
    · left; rw [← hxe, if_neg hxk]; exact hx
  · rw [if_neg hc] at h
    rcases List.mem_append.mp h with h | h
    · exact Or.inl h
    · right; simpa using h

theorem dictInsert_keys_of_mem {d : CSDict} {k : CharSet} {n : Int}
    (h : (d.any fun x => x.1 = k) = true) :
    (dictInsert d k n).map Prod.fst = d.map Prod.fst := by
  unfold dictInsert
  rw [if_pos h, List.map_map]
  apply List.map_congr_left
  intro kv _
  by_cases hk : kv.1 = k
  · simp [hk]
  · simp [hk]

theorem dictInsert_of_not_mem {d : CSDict} {k : CharSet} {n : Int}
    (h : (d.any fun x => x.1 = k) = false) :
    dictInsert d k n = d ++ [(k, n)] := by
  unfold dictInsert
  rw [if_neg (by simp [h])]

theorem dictInsert_keys_nodup {d : CSDict} {k : CharSet} {n : Int}
    (h : (d.map Prod.fst).Nodup) : ((dictInsert d k n).map Prod.fst).Nodup := by
  by_cases hc : (d.any fun x => x.1 = k) = true
  · rw [dictInsert_keys_of_mem hc]; exact h
  · rw [dictInsert_of_not_mem (Bool.eq_false_iff.mpr hc), List.map_append]
    rw [List.nodup_append]
    refine ⟨h, by simp, ?_⟩
    intro a ha hb
    simp only [List.map_cons, List.map_nil, List.mem_singleton] at hb
    subst hb
    rcases List.mem_map.mp ha with ⟨x, hx, hxe⟩
    exact hc (List.any_eq_true.mpr ⟨x, hx, by simp [hxe]⟩)

theorem dictInsert_ne_nil (d : CSDict) (k : CharSet) (n : Int) :
    dictInsert d k n ≠ [] := by
  by_cases hc : (d.any fun x => x.1 = k) = true
  · unfold dictInsert
    rw [if_pos hc]
    cases d with
    | nil => simp [List.any] at hc
    | cons e es => simp
  · rw [dictInsert_of_not_mem (Bool.eq_false_iff.mpr hc)]
    simp

theorem foldl_dictInsert_nodup (es : List (CharSet × Int)) :
    ∀ acc : CSDict, (acc.map Prod.fst).Nodup →
      ((es.foldl (fun d e => dictInsert d e.1 e.2) acc).map Prod.fst).Nodup := by
  induction es with
  | nil => intro acc h; exact h
  | cons e rest ih =>
    intro acc h
    exact ih _ (dictInsert_keys_nodup h)

theorem dictOfList_keys_nodup (es : List (CharSet × Int)) :
    ((dictOfList es).map Prod.fst).Nodup :=
  foldl_dictInsert_nodup es [] (by simp)

theorem foldl_dictInsert_mem (es : List (CharSet × Int)) :
    ∀ (acc : CSDict) (kv : CharSet × Int),
      kv ∈ es.foldl (fun d e => dictInsert d e.1 e.2) acc →
        kv ∈ acc ∨ kv ∈ es := by
  induction es with
  | nil => intro acc kv h; exact Or.inl h
  | cons e rest ih =>
    intro acc kv h
    rcases ih _ kv h with h1 | h1
    · rcases mem_dictInsert h1 with h2 | h2
      · exact Or.inl h2
      · right; rw [h2]; exact List.mem_cons_self e rest
    · exact Or.inr (List.mem_cons_of_mem e h1)

theorem mem_dictOfList {es : List (CharSet × Int)} {kv : CharSet × Int}
    (h : kv ∈ dictOfList es) : kv ∈ es := by
  rcases foldl_dictInsert_mem es [] kv h with h1 | h1
  · simp at h1
  · exact h1

theorem foldl_dictInsert_ne_nil (es : List (CharSet × Int)) :
    ∀ acc : CSDict, acc ≠ [] →
      es.foldl (fun d e => dictInsert d e.1 e.2) acc ≠ [] := by
  induction es with
  | nil => intro acc h; exact h
  | cons e rest ih => intro acc _; exact ih _ (dictInsert_ne_nil acc e.1 e.2)

theorem dictOfList_ne_nil {es : List (CharSet × Int)} (h : es ≠ []) :
    dictOfList es ≠ [] := by
  cases es with
  | nil => exact absurd rfl h
  | cons e rest =>
    exact foldl_dictInsert_ne_nil rest _ (dictInsert_ne_nil [] e.1 e.2)

theorem foldl_dictInsert_self (d : List (CharSet × Int)) :
    ∀ acc : CSDict, (((acc ++ d).map Prod.fst)).Nodup →
      d.foldl (fun a e => dictInsert a e.1 e.2) acc = acc ++ d := by
  induction d with
  | nil => intro acc _; simp
  | cons kv rest ih =>
    intro acc h
    have hnotin : (acc.any fun x => x.1 = kv.1) = false := by
      rw [List.any_eq_false]
      intro x hx
      simp only [decide_eq_true_eq]
      intro hxe
      rw [List.map_append, List.nodup_append] at h
      exact h.2.2 (List.mem_map.mpr ⟨x, hx, hxe⟩) (by simp)
    have hstep : dictInsert acc kv.1 kv.2 = acc ++ [kv] := by
      rw [dictInsert_of_not_mem hnotin]
    simp only [List.foldl_cons, hstep]
    rw [ih (acc ++ [kv]) (by rwa [List.append_assoc, List.singleton_append]),
      List.append_assoc, List.singleton_append]

theorem dictOfList_self {d : List (CharSet × Int)}
    (h : (d.map Prod.fst).Nodup) : dictOfList d = d := by
  have := foldl_dictInsert_self d [] (by simpa using h)
  simpa using this

/-! ## Serialisation round-trip for MAXLIST -/

theorem intChars_ne_colon_comma {c : Char} {n : Int} (h : c ∈ intChars n) :
    c ≠ ':' ∧ c ≠ ',' := by
  rcases mem_intChars h with h1 | h1
  · subst h1; exact ⟨by decide, by decide⟩
  · constructor <;> (intro he; rw [he] at h1; exact absurd h1 (by decide))

theorem splitColon_entry {k : List Char} {n : Int}
    (hk : ∀ c ∈ k, c ≠ ':') :
    splitOnChar ':' (k ++ ':' :: intChars n) = [k, intChars n] := by
  rw [splitOnChar_append_cons (fun hc => (hk ':' hc) rfl),
    splitOnChar_eq_single (fun hc => (intChars_ne_colon_comma hc).1 rfl)]

theorem WFdictb_spec {d : CSDict} (h : WFdictb d = true) :
    d ≠ [] ∧ (d.map Prod.fst).Nodup ∧
      ∀ kv ∈ d, List.Chain' (· < ·) kv.1 ∧ ∀ c ∈ kv.1, c ≠ ':' ∧ c ≠ ',' := by
  simp only [WFdictb, Bool.and_eq_true, Bool.not_eq_true', List.isEmpty_eq_false,
    decide_eq_true_eq, List.all_eq_true] at h
  refine ⟨h.1.1, h.1.2, ?_⟩
  intro kv hkv
  have := h.2 kv hkv
  simp only [Bool.and_eq_true, decide_eq_true_eq, List.all_eq_true] at this
  exact ⟨this.1, fun c hc => (this.2 c hc)⟩

theorem mapM_parse_entries {d : CSDict}
    (hkv : ∀ kv ∈ d, List.Chain' (· < ·) kv.1 ∧ ∀ c ∈ kv.1, c ≠ ':' ∧ c ≠ ',') :
    (d.map (fun kv => kv.1 ++ ':' :: intChars kv.2)).mapM parseMaxlistEntry
      = some d := by
  induction d with
  | nil => rfl
  | cons kv rest ih =>
    have hhead := hkv kv (List.mem_cons_self kv rest)
    have hentry : parseMaxlistEntry (kv.1 ++ ':' :: intChars kv.2) = some kv := by
      unfold parseMaxlistEntry
      rw [splitColon_entry (fun c hc => (hhead.2 c hc).1)]
      dsimp only
      rw [pyIntChars_intChars]
      simp [canonize_eq_self hhead.1]
    simp only [List.map_cons, List.mapM_cons, hentry,
      ih (fun x hm => hkv x (List.mem_cons_of_mem kv hm))]
    rfl

theorem serializeMaxlist_ne_nil {d : CSDict} (h : d ≠ []) :
    serializeMaxlist d ≠ [] := by
  unfold serializeMaxlist
  cases d with
  | nil => exact absurd rfl h
  | cons kv rest =>
    cases rest with
    | nil => simp [joinChar]
    | cons kv2 rest2 => simp [joinChar]

theorem parseMaxlist_serialize {d : CSDict} (h : WFdictb d = true) :
    parseMaxlistEntries (String.mk (serializeMaxlist d)) = some d := by
  obtain ⟨hne, hnodup, hkv⟩ := WFdictb_spec h
  have hmapne : d.map (fun kv => kv.1 ++ ':' :: intChars kv.2) ≠ [] := by
    simpa using hne
  have hnocomma :
      ∀ p ∈ d.map (fun kv => kv.1 ++ ':' :: intChars kv.2), ',' ∉ p := by
    intro p hp
    rcases List.mem_map.mp hp with ⟨kv, hkvm, rfl⟩
    intro hc
    rcases List.mem_append.mp hc with hc | hc
    · exact ((hkv kv hkvm).2 ',' hc).2 rfl
    · rcases List.mem_cons.mp hc with hc | hc
      · exact absurd hc (by decide)
      · exact (intChars_ne_colon_comma hc).2 rfl
  have htl : (String.mk (serializeMaxlist d)).toList = serializeMaxlist d := rfl
  unfold parseMaxlistEntries
  rw [htl]
  unfold serializeMaxlist
  rw [splitOnChar_joinChar hmapne hnocomma]
  exact mapM_parse_entries hkv

/-! ## Record-update identities and basic setter facts -/

theorem set_excepts_self {s : ServerCapabilities} {e : String}
    (h : s._excepts = some e) : { s with _excepts := some e } = s := by
  cases s
  simp_all

theorem set_invex_self {s : ServerCapabilities} {i : String}
    (h : s._invex = some i) : { s with _invex := some i } = s := by
  cases s
  simp_all

theorem set_maxlist_self {s : ServerCapabilities} {d : CSDict}
    (h : s._maxlist = some d) : { s with _maxlist := some d } = s := by
  cases s
  simp_all

theorem set_chanmodes_self {s : ServerCapabilities} {m : ChanModes}
    (h : s._chanmodes = some m) : { s with _chanmodes := some m } = s := by
  cases s
  simp_all

theorem ne_empty_of_length_one {e : String} (h : e.length = 1) : e ≠ "" := by
  intro he
  subst he
  simp at h

theorem parseFlag_self {d e : String} (h : e.length = 1) :
    parseFlag d e = some e := by
  unfold parseFlag
  rw [if_neg (ne_empty_of_length_one h), if_pos h]

theorem parseFlag_length {d v w : String} (h : parseFlag d v = some w) :
    w.length = 1 := by
  unfold parseFlag at h
  dsimp only at h
  split at h <;> split at h <;>
    first
      | (injection h with h1; subst h1; assumption)
      | cases h

/-! ## Facts about `mapM` over `Option` -/

theorem mapM_option_ne_nil {α β : Type} {f : α → Option β} {l : List α}
    {r : List β} (h : l.mapM f = some r) (hl : l ≠ []) : r ≠ [] := by
  cases l with
  | nil => exact absurd rfl hl
  | cons a as =>
    rw [List.mapM_cons] at h
    cases hfa : f a with
    | none => rw [hfa] at h; simp at h
    | some b =>
      rw [hfa] at h
      cases hrest : as.mapM f with
      | none => rw [hrest] at h; simp at h
      | some bs =>
        rw [hrest] at h
        simp only [Option.pure_def, Option.bind_some, Option.bind_eq_bind,
          Option.some_bind, Option.some.injEq] at h
        rw [← h]
        simp

theorem mapM_option_mem {α β : Type} {f : α → Option β} :
    ∀ {l : List α} {r : List β}, l.mapM f = some r →
      ∀ b ∈ r, ∃ a ∈ l, f a = some b := by
  intro l
  induction l with
  | nil =>
    intro r h b hb
    simp only [List.mapM_nil, Option.pure_def, Option.some.injEq] at h
    rw [← h] at hb
    simp at hb
  | cons a as ih =>
    intro r h b hb
    rw [List.mapM_cons] at h
    cases hfa : f a with
    | none => rw [hfa] at h; simp at h
    | some b0 =>
      rw [hfa] at h
      cases hrest : as.mapM f with
      | none => rw [hrest] at h; simp at h
      | some bs =>
        rw [hrest] at h
        simp only [Option.pure_def, Option.bind_some, Option.bind_eq_bind,
          Option.some_bind, Option.some.injEq] at h
        rw [← h] at hb
        rcases List.mem_cons.mp hb with hb | hb
        · exact ⟨a, List.mem_cons_self a as, hb ▸ hfa⟩
        · rcases ih hrest b hb with ⟨a1, ha1, hfa1⟩
          exact ⟨a1, List.mem_cons_of_mem a ha1, hfa1⟩

/-! ## Well-formedness of parsed dict entries -/

theorem mem_stripChars {x : Char} {l : List Char} (h : x ∈ stripChars l) :
    x ∈ l := by
  unfold stripChars at h
  rw [List.mem_reverse] at h
  have h1 := (List.dropWhile_sublist _).subset h
  rw [List.mem_reverse] at h1
  exact (List.dropWhile_sublist _).subset h1

theorem parseLimitEntry_wf {e : List Char} {k : CharSet} {n : Int}
    (h : parseLimitEntry e = some (k, n)) (hce : ',' ∉ e) :
    List.Chain' (· < ·) k ∧ ∀ c ∈ k, c ≠ ':' ∧ c ≠ ',' := by
  unfold parseLimitEntry at h
  split at h
  case _ pfx num heq =>
    cases hpi : pyIntChars num with
    | none => rw [hpi] at h; simp at h
    | some n0 =>
      rw [hpi] at h
      simp only [Option.map_some', Option.some.injEq, Prod.mk.injEq] at h
      have hk : k = canonize pfx := h.1.symm
      subst hk
      have hpfx : pfx ∈ splitOnChar ':' (stripChars e) := by
        rw [heq]; exact List.mem_cons_self pfx [num]
      refine ⟨chain'_canonize pfx, ?_⟩
      intro c hc
      have hcp : c ∈ pfx := mem_canonize.mp hc
      constructor
      · intro hcc
        exact mem_splitOnChar_not_mem hpfx (hcc ▸ hcp)
      · intro hcc
        exact hce (hcc ▸ mem_stripChars (mem_of_mem_splitOnChar hpfx hcp))
  case _ => exact absurd h (by simp)

theorem parseMaxlistEntry_wf {e : List Char} {k : CharSet} {n : Int}
    (h : parseMaxlistEntry e = some (k, n)) (hce : ',' ∉ e) :
    List.Chain' (· < ·) k ∧ ∀ c ∈ k, c ≠ ':' ∧ c ≠ ',' := by
  unfold parseMaxlistEntry at h
  split at h
  case _ f num heq =>
    cases hpi : pyIntChars num with
    | none => rw [hpi] at h; simp at h
    | some n0 =>
      rw [hpi] at h
      simp only [Option.map_some', Option.some.injEq, Prod.mk.injEq] at h
      have hk : k = canonize f := h.1.symm
      subst hk
      have hf : f ∈ splitOnChar ':' e := by
        rw [heq]; exact List.mem_cons_self f [num]
      refine ⟨chain'_canonize f, ?_⟩
      intro c hc
      have hcp : c ∈ f := mem_canonize.mp hc
      constructor
      · intro hcc
        exact mem_splitOnChar_not_mem hf (hcc ▸ hcp)
      · intro hcc
        exact hce (hcc ▸ mem_of_mem_splitOnChar hf hcp)
  case _ => exact absurd h (by simp)

theorem WFdictb_intro {d : CSDict} (h1 : d ≠ [])
    (h2 : (d.map Prod.fst).Nodup)
    (h3 : ∀ kv ∈ d, List.Chain' (· < ·) kv.1 ∧ ∀ c ∈ kv.1, c ≠ ':' ∧ c ≠ ',') :
    WFdictb d = true := by
  simp only [WFdictb, Bool.and_eq_true, Bool.not_eq_true', List.isEmpty_eq_false,
    decide_eq_true_eq, List.all_eq_true]
  exact ⟨⟨h1, h2⟩, h3⟩

theorem parseChanlimit_wfdict {v : String} {es : List (CharSet × Int)}
    (h : parseChanlimitEntries v = some es) :
    WFdictb (dictOfList es) = true := by
  apply WFdictb_intro
  · exact dictOfList_ne_nil
      (mapM_option_ne_nil h (splitOnChar_ne_nil ',' (stripChars v.toList)))
  · exact dictOfList_keys_nodup es
  · intro kv hkv
    rcases mapM_option_mem h kv (mem_dictOfList hkv) with ⟨e, he, hfe⟩
    obtain ⟨k, n⟩ := kv
    exact parseLimitEntry_wf hfe (mem_splitOnChar_not_mem he)

theorem parseMaxlist_wfdict {v : String} {es : List (CharSet × Int)}
    (h : parseMaxlistEntries v = some es) :
    WFdictb (dictOfList es) = true := by
  apply WFdictb_intro
  · exact dictOfList_ne_nil
      (mapM_option_ne_nil h (splitOnChar_ne_nil ',' v.toList))
  · exact dictOfList_keys_nodup es
  · intro kv hkv
    rcases mapM_option_mem h kv (mem_dictOfList hkv) with ⟨e, he, hfe⟩
    obtain ⟨k, n⟩ := kv
    exact parseMaxlistEntry_wf hfe (mem_splitOnChar_not_mem he)

/-! ## Unpacking and establishing the well-formedness predicates -/

theorem WFb_spec {s : ServerCapabilities} (h : WFb s = true) :
    (∀ c, s._casemapping = some c → c = "ascii") ∧
    (∀ d, s._chanlimit = some d → WFdictb d = true) ∧
    (∀ e, s._excepts = some e → e.length = 1) ∧
    (∀ i, s._invex = some i → i.length = 1) ∧
    (∀ d, s._maxlist = some d → WFdictb d = true) := by
  simp only [WFb, Bool.and_eq_true] at h
  obtain ⟨⟨⟨⟨h1, h2⟩, h3⟩, h4⟩, h5⟩ := h
  refine ⟨?_, ?_, ?_, ?_, ?_⟩
  · intro c hc; rw [hc] at h1; simpa using h1
  · intro d hd; rw [hd] at h2; simpa using h2
  · intro e he; rw [he] at h3; simpa using h3
  · intro i hi; rw [hi] at h4; simpa using h4
  · intro d hd; rw [hd] at h5; simpa using h5

theorem WFb_intro {s : ServerCapabilities}
    (h1 : ∀ c, s._casemapping = some c → c = "ascii")
    (h2 : ∀ d, s._chanlimit = some d → WFdictb d = true)
    (h3 : ∀ e, s._excepts = some e → e.length = 1)
    (h4 : ∀ i, s._invex = some i → i.length = 1)
    (h5 : ∀ d, s._maxlist = some d → WFdictb d = true) : WFb s = true := by
  simp only [WFb, Bool.and_eq_true]
  refine ⟨⟨⟨⟨?_, ?_⟩, ?_⟩, ?_⟩, ?_⟩
  · cases hc : s._casemapping with
    | none => rfl
    | some c => simpa using h1 c hc
  · cases hc : s._chanlimit with
    | none => rfl
    | some d => simpa using h2 d hc
  · cases hc : s._excepts with
    | none => rfl
    | some e => simpa using h3 e hc
  · cases hc : s._invex with
    | none => rfl
    | some i => simpa using h4 i hc
  · cases hc : s._maxlist with
    | none => rfl
    | some d => simpa using h5 d hc

theorem Invb_spec {s : ServerCapabilities} (h : Invb s = true) :
    ∀ m, s._chanmodes = some m →
      (∀ e, s._excepts = some e → memFlag e m.1 = true) ∧
      (∀ i, s._invex = some i → memFlag i m.1 = true) ∧
      (∀ d, s._maxlist = some d → isSetEq (unionKeys d) m.1 = true) := by
  intro m hm
  unfold Invb at h
  rw [hm] at h
  dsimp only at h
  rw [Bool.and_eq_true, Bool.and_eq_true] at h
  obtain ⟨⟨he, hi⟩, hx⟩ := h
  refine ⟨?_, ?_, ?_⟩
  · intro e hev; rw [hev] at he; simpa using he
  · intro i hiv; rw [hiv] at hi; simpa using hi
  · intro d hdv; rw [hdv] at hx; simpa using hx

theorem Invb_intro {s : ServerCapabilities}
    (h : ∀ m, s._chanmodes = some m →
      (∀ e, s._excepts = some e → memFlag e m.1 = true) ∧
      (∀ i, s._invex = some i → memFlag i m.1 = true) ∧
      (∀ d, s._maxlist = some d → isSetEq (unionKeys d) m.1 = true)) :
    Invb s = true := by
  unfold Invb
  cases hm : s._chanmodes with
  | none => rfl
  | some m =>
    dsimp only
    obtain ⟨he, hi, hx⟩ := h m hm
    rw [Bool.and_eq_true, Bool.and_eq_true]
    refine ⟨⟨?_, ?_⟩, ?_⟩
    · cases hev : s._excepts with
      | none => simp
      | some e => simpa using he e hev
    · cases hiv : s._invex with
      | none => simp
      | some i => simpa using hi i hiv
    · cases hdv : s._maxlist with
      | none => simp
      | some d => simpa using hx d hdv

/-! ## Behaviour of the re-validation steps on well-formed states -/

theorem string_mk_ne_empty {l : List Char} (h : l ≠ []) :
    String.mk l ≠ "" := by
  intro he
  apply h
  have hd : (String.mk l).data = ("" : String).data := by rw [he]
  simpa using hd

theorem revalidateExcepts_wf {s : ServerCapabilities} (hw : WFb s = true) :
    (revalidateExcepts s).1 = s ∧
    (∀ er, (revalidateExcepts s).2 = some er → ∃ c, er = .logicError c) ∧
    ((revalidateExcepts s).2 = none →
      ∀ m e, s._chanmodes = some m → s._excepts = some e →
        memFlag e m.1 = true) ∧
    ((∀ m e, s._chanmodes = some m → s._excepts = some e →
        memFlag e m.1 = true) → (revalidateExcepts s).2 = none) := by
  obtain ⟨hw1, hw2, hw3, hw4, hw5⟩ := WFb_spec hw
  unfold revalidateExcepts excepts_get
  cases hse : s._excepts with
  | none =>
    dsimp only
    refine ⟨rfl, ?_, ?_, ?_⟩
    · intro er her; cases her
    · intro _ m e _ he0; cases he0
    · intro _; rfl
  | some e =>
    dsimp only
    have hlen : e.length = 1 := hw3 e hse
    have hne : e ≠ "" := ne_empty_of_length_one hlen
    rw [if_pos hne]
    unfold excepts_fset
    rw [parseFlag_self hlen]
    dsimp only
    unfold chanmodes_get
    cases hm : s._chanmodes with
    | none =>
      dsimp only
      refine ⟨by rw [← hm]; exact set_excepts_self hse, ?_, ?_, ?_⟩
      · intro er her; cases her
      · intro _ m0 e0 hm0 _; cases hm0
      · intro _; rfl
    | some m =>
      dsimp only
      by_cases hmem : memFlag e m.1 = true
      · rw [if_pos hmem]
        refine ⟨by rw [← hm]; exact set_excepts_self hse, ?_, ?_, ?_⟩
        · intro er her; cases her
        · intro _ m0 e0 hm0 he0
          injection hm0 with hm0; subst hm0
          injection he0 with he0; subst he0
          exact hmem
        · intro _; rfl
      · rw [if_neg hmem]
        refine ⟨rfl, ?_, ?_, ?_⟩
        · intro er her; injection her with her; exact ⟨_, her.symm⟩
        · intro hnone; cases hnone
        · intro hok; exact absurd (hok m e rfl rfl) hmem

theorem revalidateInvex_wf {s : ServerCapabilities} (hw : WFb s = true) :
    (revalidateInvex s).1 = s ∧
    (∀ er, (revalidateInvex s).2 = some er → ∃ c, er = .logicError c) ∧
    ((revalidateInvex s).2 = none →
      ∀ m i, s._chanmodes = some m → s._invex = some i →
        memFlag i m.1 = true) ∧
    ((∀ m i, s._chanmodes = some m → s._invex = some i →
        memFlag i m.1 = true) → (revalidateInvex s).2 = none) := by
  obtain ⟨hw1, hw2, hw3, hw4, hw5⟩ := WFb_spec hw
  unfold revalidateInvex invex_get
  cases hse : s._invex with
  | none =>
    dsimp only
    refine ⟨rfl, ?_, ?_, ?_⟩
    · intro er her; cases her
    · intro _ m i _ hi0; cases hi0
    · intro _; rfl
  | some i =>
    dsimp only
    have hlen : i.length = 1 := hw4 i hse
    have hne : i ≠ "" := ne_empty_of_length_one hlen
    rw [if_pos hne]
    unfold invex_fset
    rw [parseFlag_self hlen]
    dsimp only
    unfold chanmodes_get
    cases hm : s._chanmodes with
    | none =>
      dsimp only
      refine ⟨by rw [← hm]; exact set_invex_self hse, ?_, ?_, ?_⟩
      · intro er her; cases her
      · intro _ m0 i0 hm0 _; cases hm0
      · intro _; rfl
    | some m =>
      dsimp only
      by_cases hmem : memFlag i m.1 = true
      · rw [if_pos hmem]
        refine ⟨by rw [← hm]; exact set_invex_self hse, ?_, ?_, ?_⟩
        · intro er her; cases her
        · intro _ m0 i0 hm0 hi0
          injection hm0 with hm0; subst hm0
          injection hi0 with hi0; subst hi0
          exact hmem
        · intro _; rfl
      · rw [if_neg hmem]
        refine ⟨rfl, ?_, ?_, ?_⟩
        · intro er her; injection her with her; exact ⟨_, her.symm⟩
        · intro hnone; cases hnone
        · intro hok; exact absurd (hok m i rfl rfl) hmem

theorem revalidateMaxlist_wf {s : ServerCapabilities} (hw : WFb s = true) :
    (revalidateMaxlist s).1 = s ∧
    (∀ er, (revalidateMaxlist s).2 = some er → ∃ c, er = .logicError c) ∧
    ((revalidateMaxlist s).2 = none →
      ∀ m d, s._chanmodes = some m → s._maxlist = some d →
        isSetEq (unionKeys d) m.1 = true) ∧
    ((∀ m d, s._chanmodes = some m → s._maxlist = some d →
        isSetEq (unionKeys d) m.1 = true) → (revalidateMaxlist s).2 = none) := by
  obtain ⟨hw1, hw2, hw3, hw4, hw5⟩ := WFb_spec hw
  unfold revalidateMaxlist maxlist_get
  cases hsd : s._maxlist with
  | none =>
    dsimp only
    refine ⟨rfl, ?_, ?_, ?_⟩
    · intro er her; cases her
    · intro _ m d _ hd0; cases hd0
    · intro _; rfl
  | some d =>
    dsimp only
    have hwfd : WFdictb d = true := hw5 d hsd
    obtain ⟨hdne, hdnodup, _⟩ := WFdictb_spec hwfd
    have hemp : d.isEmpty = false := by
      cases d with
      | nil => exact absurd rfl hdne
      | cons a b => rfl
    rw [if_pos (by rw [hemp]; simp)]
    unfold maxlist_fset
    rw [if_neg (string_mk_ne_empty (serializeMaxlist_ne_nil hdne)),
      parseMaxlist_serialize hwfd]
    dsimp only
    rw [dictOfList_self hdnodup]
    unfold chanmodes_get
    cases hm : s._chanmodes with
    | none =>
      dsimp only
      refine ⟨by rw [← hm]; exact set_maxlist_self hsd, ?_, ?_, ?_⟩
      · intro er her; cases her
      · intro _ m0 d0 hm0 _; cases hm0
      · intro _; rfl
    | some m =>
      dsimp only
      by_cases hset : isSetEq (unionKeys d) m.1 = true
      · rw [if_pos hset]
        refine ⟨by rw [← hm]; exact set_maxlist_self hsd, ?_, ?_, ?_⟩
        · intro er her; cases her
        · intro _ m0 d0 hm0 hd0
          injection hm0 with hm0; subst hm0
          injection hd0 with hd0; subst hd0
          exact hset
        · intro _; rfl
      · rw [if_neg hset]
        refine ⟨rfl, ?_, ?_, ?_⟩
        · intro er her; injection her with her; exact ⟨_, her.symm⟩
        · intro hnone; cases hnone
        · intro hok; exact absurd (hok m d rfl rfl) hset

theorem revalidateDeps_wf {s : ServerCapabilities} (hw : WFb s = true) :
    (revalidateDeps s).1 = s ∧
    (∀ er, (revalidateDeps s).2 = some er → ∃ c, er = .logicError c) ∧
    ((revalidateDeps s).2 = none → Invb s = true) := by
  obtain ⟨he1, he2, he3, _⟩ := revalidateExcepts_wf hw
  obtain ⟨hi1, hi2, hi3, _⟩ := revalidateInvex_wf hw
  obtain ⟨hm1, hm2, hm3, _⟩ := revalidateMaxlist_wf hw
  cases hrx2 : (revalidateExcepts s).2 with
  | some er =>
    have hxpair : revalidateExcepts s = (s, some er) :=
      Prod.ext_iff.mpr ⟨he1, hrx2⟩
    have hfull : revalidateDeps s = (s, some er) := by
      unfold revalidateDeps
      rw [hxpair]
      rfl
    rw [hfull]
    exact ⟨rfl, fun er0 h0 => by injection h0 with h0; exact h0 ▸ he2 er hrx2,
      fun h0 => by cases h0⟩
  | none =>
    have hxpair : revalidateExcepts s = (s, none) :=
      Prod.ext_iff.mpr ⟨he1, hrx2⟩
    have hstep : revalidateDeps s = pySeq (revalidateInvex s) revalidateMaxlist := by
      unfold revalidateDeps
      rw [hxpair]
      rfl
    cases hry2 : (revalidateInvex s).2 with
    | some er =>
      have hypair : revalidateInvex s = (s, some er) :=
        Prod.ext_iff.mpr ⟨hi1, hry2⟩
      have hfull : revalidateDeps s = (s, some er) := by
        rw [hstep, hypair]
        rfl
      rw [hfull]
      exact ⟨rfl, fun er0 h0 => by injection h0 with h0; exact h0 ▸ hi2 er hry2,
        fun h0 => by cases h0⟩
    | none =>
      have hypair : revalidateInvex s = (s, none) :=
        Prod.ext_iff.mpr ⟨hi1, hry2⟩
      have hstep2 : revalidateDeps s = revalidateMaxlist s := by
        rw [hstep, hypair]
        rfl
      rw [hstep2]
      refine ⟨hm1, hm2, ?_⟩
      intro hnone
      apply Invb_intro
      intro m hm
      exact ⟨fun e hev => he3 hrx2 m e hm hev,
        fun i hiv => hi3 hry2 m i hm hiv,
        fun d hdv => hm3 hnone m d hm hdv⟩

theorem revalidateDeps_ok {s : ServerCapabilities} (hw : WFb s = true)
    (hi : Invb s = true) : revalidateDeps s = (s, none) := by
  obtain ⟨he1, _, _, he4⟩ := revalidateExcepts_wf hw
  obtain ⟨hi1, _, _, hi4⟩ := revalidateInvex_wf hw
  obtain ⟨hm1, _, _, hm4⟩ := revalidateMaxlist_wf hw
  have hrx : revalidateExcepts s = (s, none) :=
    Prod.ext_iff.mpr ⟨he1, he4 (fun m e hm he => ((Invb_spec hi) m hm).1 e he)⟩
  have hry : revalidateInvex s = (s, none) :=
    Prod.ext_iff.mpr ⟨hi1, hi4 (fun m i hm hiv => ((Invb_spec hi) m hm).2.1 i hiv)⟩
  have hrm : revalidateMaxlist s = (s, none) :=
    Prod.ext_iff.mpr ⟨hm1, hm4 (fun m d hm hdv => ((Invb_spec hi) m hm).2.2 d hdv)⟩
  unfold revalidateDeps
  rw [hrx]
  show pySeq (revalidateInvex s) revalidateMaxlist = (s, none)
  rw [hry]
  show revalidateMaxlist s = (s, none)
  exact hrm

/-! ## Every store operation preserves well-formedness and the invariants -/

theorem WFb_set_channellen (s : ServerCapabilities) (x : Option (Option Int)) :
    WFb { s with _channellen := x } = WFb s := rfl

theorem WFb_set_kicklen (s : ServerCapabilities) (x : Option (Option Int)) :
    WFb { s with _kicklen := x } = WFb s := rfl

theorem WFb_set_chantypes (s : ServerCapabilities) (x : Option CharSet) :
    WFb { s with _chantypes := x } = WFb s := rfl

theorem Invb_set_casemapping (s : ServerCapabilities) (x : Option String) :
    Invb { s with _casemapping := x } = Invb s := rfl

theorem Invb_set_chanlimit (s : ServerCapabilities) (x : Option CSDict) :
    Invb { s with _chanlimit := x } = Invb s := rfl

theorem Invb_set_channellen (s : ServerCapabilities) (x : Option (Option Int)) :
    Invb { s with _channellen := x } = Invb s := rfl

theorem Invb_set_kicklen (s : ServerCapabilities) (x : Option (Option Int)) :
    Invb { s with _kicklen := x } = Invb s := rfl

theorem Invb_set_chantypes (s : ServerCapabilities) (x : Option CharSet) :
    Invb { s with _chantypes := x } = Invb s := rfl

theorem casemapping_preserves {s : ServerCapabilities} {v : String}
    (hw : WFb s = true) (hi : Invb s = true) :
    WFb (casemapping_fset s v).1 = true ∧ Invb (casemapping_fset s v).1 = true := by
  unfold casemapping_fset
  cases hp : parseCasemapping v with
  | none => exact ⟨hw, hi⟩
  | some w =>
    dsimp only
    split
    · exact ⟨hw, hi⟩
    next hne =>
      refine ⟨?_, by rw [Invb_set_casemapping]; exact hi⟩
      apply WFb_intro
      · intro c hc
        have hc2 : some w = some c := hc
        injection hc2 with hc2
        subst hc2
        exact Classical.byContradiction fun hcc => hne hcc
      · intro d hd; exact (WFb_spec hw).2.1 d hd
      · intro e he; exact (WFb_spec hw).2.2.1 e he
      · intro i hiv; exact (WFb_spec hw).2.2.2.1 i hiv
      · intro d hd; exact (WFb_spec hw).2.2.2.2 d hd

theorem chanlimit_preserves {s : ServerCapabilities} {v : String}
    (hw : WFb s = true) (hi : Invb s = true) :
    WFb (chanlimit_fset s v).1 = true ∧ Invb (chanlimit_fset s v).1 = true := by
  unfold chanlimit_fset
  cases hp : parseChanlimitEntries v with
  | none => exact ⟨hw, hi⟩
  | some es =>
    dsimp only
    split
    · exact ⟨hw, hi⟩
    · split
      · refine ⟨?_, by rw [Invb_set_chanlimit]; exact hi⟩
        apply WFb_intro
        · intro c hc; exact (WFb_spec hw).1 c hc
        · intro d hd
          have hd2 : some (dictOfList es) = some d := hd
          injection hd2 with hd2
          subst hd2
          exact parseChanlimit_wfdict hp
        · intro e he; exact (WFb_spec hw).2.2.1 e he
        · intro i hiv; exact (WFb_spec hw).2.2.2.1 i hiv
        · intro d hd; exact (WFb_spec hw).2.2.2.2 d hd
      · exact ⟨hw, hi⟩

theorem chanmodes_preserves {s : ServerCapabilities} {v : String}
    (hw : WFb s = true) (hi : Invb s = true) :
    WFb (chanmodes_fset s v).1 = true ∧ Invb (chanmodes_fset s v).1 = true := by
  unfold chanmodes_fset
  cases hp : parseChanmodes v with
  | none => exact ⟨hw, hi⟩
  | some m =>
    dsimp only
    have hwupd : WFb { s with _chanmodes := some m } = true := hw
    obtain ⟨hr1, hr2, hr3⟩ := revalidateDeps_wf hwupd
    rcases hrd : revalidateDeps { s with _chanmodes := some m } with ⟨s2, err⟩
    rw [hrd] at hr1 hr2 hr3
    dsimp only at hr1
    subst hr1
    cases err with
    | none =>
      dsimp only
      exact ⟨hwupd, hr3 rfl⟩
    | some er =>
      obtain ⟨c, hc⟩ := hr2 er rfl
      subst hc
      dsimp only
      split
      next hlog =>
        dsimp only
        exact ⟨hw, hi⟩
      next hlog => exact absurd rfl hlog

theorem channellen_preserves {s : ServerCapabilities} {v : String}
    (hw : WFb s = true) (hi : Invb s = true) :
    WFb (channellen_fset s v).1 = true ∧ Invb (channellen_fset s v).1 = true := by
  unfold channellen_fset
  cases hp : parseOptInt v with
  | none => exact ⟨hw, hi⟩
  | some n =>
    dsimp only
    rw [WFb_set_channellen, Invb_set_channellen]
    exact ⟨hw, hi⟩

theorem kicklen_preserves {s : ServerCapabilities} {v : String}
    (hw : WFb s = true) (hi : Invb s = true) :
    WFb (kicklen_fset s v).1 = true ∧ Invb (kicklen_fset s v).1 = true := by
  unfold kicklen_fset
  cases hp : parseOptInt v with
  | none => exact ⟨hw, hi⟩
  | some n =>
    dsimp only
    rw [WFb_set_kicklen, Invb_set_kicklen]
    exact ⟨hw, hi⟩

theorem chantypes_preserves {s : ServerCapabilities} {v : String}
    (hw : WFb s = true) (hi : Invb s = true) :
    WFb (chantypes_fset s v).1 = true ∧ Invb (chantypes_fset s v).1 = true := by
  unfold chantypes_fset chanlimit_get
  cases hcl : s._chanlimit with
  | none =>
    dsimp only
    rw [← hcl, WFb_set_chantypes, Invb_set_chantypes]
    exact ⟨hw, hi⟩
  | some limits =>
    dsimp only
    split
    · rw [← hcl, WFb_set_chantypes, Invb_set_chantypes]
      exact ⟨hw, hi⟩
    · split
      · rw [← hcl, WFb_set_chantypes, Invb_set_chantypes]
        exact ⟨hw, hi⟩
      · exact ⟨hw, hi⟩

theorem excepts_preserves {s : ServerCapabilities} {v : String}
    (hw : WFb s = true) (hi : Invb s = true) :
    WFb (excepts_fset s v).1 = true ∧ Invb (excepts_fset s v).1 = true := by
  unfold excepts_fset chanmodes_get
  cases hp : parseFlag "e" v with
  | none => exact ⟨hw, hi⟩
  | some w =>
    dsimp only
    have hwlen := parseFlag_length hp
    cases hm : s._chanmodes with
    | none =>
      dsimp only
      refine ⟨?_, ?_⟩
      · apply WFb_intro
        · intro c hc; exact (WFb_spec hw).1 c hc
        · intro d hd; exact (WFb_spec hw).2.1 d hd
        · intro e he
          have he2 : some w = some e := he
          injection he2 with he2
          subst he2
          exact hwlen
        · intro i hiv; exact (WFb_spec hw).2.2.2.1 i hiv
        · intro d hd; exact (WFb_spec hw).2.2.2.2 d hd
      · apply Invb_intro
        intro m0 hm0
        have hm0' : (none : Option ChanModes) = some m0 := hm0
        cases hm0'
    | some m =>
      dsimp only
      split
      next hmem =>
        refine ⟨?_, ?_⟩
        · apply WFb_intro
          · intro c hc; exact (WFb_spec hw).1 c hc
          · intro d hd; exact (WFb_spec hw).2.1 d hd
          · intro e he
            have he2 : some w = some e := he
            injection he2 with he2
            subst he2
            exact hwlen
          · intro i hiv; exact (WFb_spec hw).2.2.2.1 i hiv
          · intro d hd; exact (WFb_spec hw).2.2.2.2 d hd
        · apply Invb_intro
          intro m0 hm0
          have hm0' : some m = some m0 := hm0
          injection hm0' with hm0'
          subst hm0'
          refine ⟨?_, ?_, ?_⟩
          · intro e hev
            have hev' : some w = some e := hev
            injection hev' with hev'
            subst hev'
            exact hmem
          · intro i hiv; exact ((Invb_spec hi) m hm).2.1 i hiv
          · intro d hdv; exact ((Invb_spec hi) m hm).2.2 d hdv
      next hmem => exact ⟨hw, hi⟩

theorem invex_preserves {s : ServerCapabilities} {v : String}
    (hw : WFb s = true) (hi : Invb s = true) :
    WFb (invex_fset s v).1 = true ∧ Invb (invex_fset s v).1 = true := by
  unfold invex_fset chanmodes_get
  cases hp : parseFlag "I" v with
  | none => exact ⟨hw, hi⟩
  | some w =>
    dsimp only
    have hwlen := parseFlag_length hp
    cases hm : s._chanmodes with
    | none =>
      dsimp only
      refine ⟨?_, ?_⟩
      · apply WFb_intro
        · intro c hc; exact (WFb_spec hw).1 c hc
        · intro d hd; exact (WFb_spec hw).2.1 d hd
        · intro e he; exact (WFb_spec hw).2.2.1 e he
        · intro i hiv
          have hi2 : some w = some i := hiv
          injection hi2 with hi2
          subst hi2
          exact hwlen
        · intro d hd; exact (WFb_spec hw).2.2.2.2 d hd
      · apply Invb_intro
        intro m0 hm0
        have hm0' : (none : Option ChanModes) = some m0 := hm0
        cases hm0'
    | some m =>
      dsimp only
      split
      next hmem =>
        refine ⟨?_, ?_⟩
        · apply WFb_intro
          · intro c hc; exact (WFb_spec hw).1 c hc
          · intro d hd; exact (WFb_spec hw).2.1 d hd
          · intro e he; exact (WFb_spec hw).2.2.1 e he
          · intro i hiv
            have hi2 : some w = some i := hiv
            injection hi2 with hi2
            subst hi2
            exact hwlen
          · intro d hd; exact (WFb_spec hw).2.2.2.2 d hd
        · apply Invb_intro
          intro m0 hm0
          have hm0' : some m = some m0 := hm0
          injection hm0' with hm0'
          subst hm0'
          refine ⟨?_, ?_, ?_⟩
          · intro e hev; exact ((Invb_spec hi) m hm).1 e hev
          · intro i hiv
            have hiv' : some w = some i := hiv
            injection hiv' with hiv'
            subst hiv'
            exact hmem
          · intro d hdv; exact ((Invb_spec hi) m hm).2.2 d hdv
      next hmem => exact ⟨hw, hi⟩

theorem maxlist_preserves {s : ServerCapabilities} {v : String}
    (hw : WFb s = true) (hi : Invb s = true) :
    WFb (maxlist_fset s v).1 = true ∧ Invb (maxlist_fset s v).1 = true := by
  unfold maxlist_fset chanmodes_get
  split
  · exact ⟨hw, hi⟩
  · cases hp : parseMaxlistEntries v with
    | none => exact ⟨hw, hi⟩
    | some es =>
      dsimp only
      cases hm : s._chanmodes with
      | none =>
        dsimp only
        refine ⟨?_, ?_⟩
        · apply WFb_intro
          · intro c hc; exact (WFb_spec hw).1 c hc
          · intro d hd; exact (WFb_spec hw).2.1 d hd
          · intro e he; exact (WFb_spec hw).2.2.1 e he
          · intro i hiv; exact (WFb_spec hw).2.2.2.1 i hiv
          · intro d hd
            have hd2 : some (dictOfList es) = some d := hd
            injection hd2 with hd2
            subst hd2
            exact parseMaxlist_wfdict hp
        · apply Invb_intro
          intro m0 hm0
          have hm0' : (none : Option ChanModes) = some m0 := hm0
          cases hm0'
      | some m =>
        dsimp only
        split
        next hset =>
          refine ⟨?_, ?_⟩
          · apply WFb_intro
            · intro c hc; exact (WFb_spec hw).1 c hc
            · intro d hd; exact (WFb_spec hw).2.1 d hd
            · intro e he; exact (WFb_spec hw).2.2.1 e he
            · intro i hiv; exact (WFb_spec hw).2.2.2.1 i hiv
            · intro d hd
              have hd2 : some (dictOfList es) = some d := hd
              injection hd2 with hd2
              subst hd2
              exact parseMaxlist_wfdict hp
          · apply Invb_intro
            intro m0 hm0
            have hm0' : some m = some m0 := hm0
            injection hm0' with hm0'
            subst hm0'
            refine ⟨?_, ?_, ?_⟩
            · intro e hev; exact ((Invb_spec hi) m hm).1 e hev
            · intro i hiv; exact ((Invb_spec hi) m hm).2.1 i hiv
            · intro d hdv
              have hdv' : some (dictOfList es) = some d := hdv
              injection hdv' with hdv'
              subst hdv'
              exact hset
        next hset => exact ⟨hw, hi⟩

theorem casemapping_fdel_preserves {s : ServerCapabilities}
    (hw : WFb s = true) (hi : Invb s = true) :
    WFb (casemapping_fdel s).1 = true ∧ Invb (casemapping_fdel s).1 = true := by
  unfold casemapping_fdel
  cases hc : s._casemapping with
  | none => exact ⟨hw, hi⟩
  | some c =>
    dsimp only
    refine ⟨?_, by rw [Invb_set_casemapping]; exact hi⟩
    apply WFb_intro
    · intro c0 hc0
      have hc2 : (none : Option String) = some c0 := hc0
      cases hc2
    · intro d hd; exact (WFb_spec hw).2.1 d hd
    · intro e he; exact (WFb_spec hw).2.2.1 e he
    · intro i hiv; exact (WFb_spec hw).2.2.2.1 i hiv
    · intro d hd; exact (WFb_spec hw).2.2.2.2 d hd

theorem channellen_fdel_preserves {s : ServerCapabilities}
    (hw : WFb s = true) (hi : Invb s = true) :
    WFb (channellen_fdel s).1 = true ∧ Invb (channellen_fdel s).1 = true := by
  unfold channellen_fdel
  cases hc : s._channellen with
  | none => exact ⟨hw, hi⟩
  | some c =>
    dsimp only
    rw [WFb_set_channellen, Invb_set_channellen]
    exact ⟨hw, hi⟩

theorem chantypes_fdel_preserves {s : ServerCapabilities}
    (hw : WFb s = true) (hi : Invb s = true) :
    WFb (chantypes_fdel s).1 = true ∧ Invb (chantypes_fdel s).1 = true := by
  unfold chantypes_fdel
  cases hc : s._chantypes with
  | none => exact ⟨hw, hi⟩
  | some c =>
    dsimp only
    rw [WFb_set_chantypes, Invb_set_chantypes]
    exact ⟨hw, hi⟩

theorem excepts_fdel_preserves {s : ServerCapabilities}
    (hw : WFb s = true) (hi : Invb s = true) :
    WFb (excepts_fdel s).1 = true ∧ Invb (excepts_fdel s).1 = true := by
  unfold excepts_fdel
  cases hc : s._excepts with
  | none => exact ⟨hw, hi⟩
  | some c =>
    dsimp only
    refine ⟨?_, ?_⟩
    · apply WFb_intro
      · intro c0 hc0; exact (WFb_spec hw).1 c0 hc0
      · intro d hd; exact (WFb_spec hw).2.1 d hd
      · intro e he
        have he2 : (none : Option String) = some e := he
        cases he2
      · intro i hiv; exact (WFb_spec hw).2.2.2.1 i hiv
      · intro d hd; exact (WFb_spec hw).2.2.2.2 d hd
    · apply Invb_intro
      intro m hm
      refine ⟨?_, ?_, ?_⟩
      · intro e hev
        have hev' : (none : Option String) = some e := hev
        cases hev'
      · intro i hiv; exact ((Invb_spec hi) m hm).2.1 i hiv
      · intro d hdv; exact ((Invb_spec hi) m hm).2.2 d hdv

theorem invex_fdel_preserves {s : ServerCapabilities}
    (hw : WFb s = true) (hi : Invb s = true) :
    WFb (invex_fdel s).1 = true ∧ Invb (invex_fdel s).1 = true := by
  unfold invex_fdel
  cases hc : s._invex with
  | none => exact ⟨hw, hi⟩
  | some c =>
    dsimp only
    refine ⟨?_, ?_⟩
    · apply WFb_intro
      · intro c0 hc0; exact (WFb_spec hw).1 c0 hc0
      · intro d hd; exact (WFb_spec hw).2.1 d hd
      · intro e he; exact (WFb_spec hw).2.2.1 e he
      · intro i hiv
        have hi2 : (none : Option String) = some i := hiv
        cases hi2
      · intro d hd; exact (WFb_spec hw).2.2.2.2 d hd
    · apply Invb_intro
      intro m hm
      refine ⟨?_, ?_, ?_⟩
      · intro e hev; exact ((Invb_spec hi) m hm).1 e hev
      · intro i hiv
        have hiv' : (none : Option String) = some i := hiv
        cases hiv'
      · intro d hdv; exact ((Invb_spec hi) m hm).2.2 d hdv

/-- Every reachable store state is well formed and satisfies the
cross-field invariants I2, I3 and I4. -/
theorem reachable_wf_inv {s : ServerCapabilities} (h : Reachable s) :
    WFb s = true ∧ Invb s = true := by
  induction h with
  | init => exact ⟨rfl, rfl⟩
  | set_casemapping _ ih => exact casemapping_preserves ih.1 ih.2
  | set_chanlimit _ ih => exact chanlimit_preserves ih.1 ih.2
  | set_chanmodes _ ih => exact chanmodes_preserves ih.1 ih.2
  | set_channellen _ ih => exact channellen_preserves ih.1 ih.2
  | set_chantypes _ ih => exact chantypes_preserves ih.1 ih.2
  | set_excepts _ ih => exact excepts_preserves ih.1 ih.2
  | set_invex _ ih => exact invex_preserves ih.1 ih.2
  | set_kicklen _ ih => exact kicklen_preserves ih.1 ih.2
  | set_maxlist _ ih => exact maxlist_preserves ih.1 ih.2
  | del_casemapping _ ih => exact casemapping_fdel_preserves ih.1 ih.2
  | del_channellen _ ih => exact channellen_fdel_preserves ih.1 ih.2
  | del_chantypes _ ih => exact chantypes_fdel_preserves ih.1 ih.2
  | del_excepts _ ih => exact excepts_fdel_preserves ih.1 ih.2
  | del_invex _ ih => exact invex_fdel_preserves ih.1 ih.2

/-! ## The claims -/

/-- C5: `Set("CaseMapping", v)` raises the distinct UnsupportedError
(`NotImplementedError`) exactly for the two syntactically valid but
unimplemented mappings `"rfc1459"` and `"strict-rfc1459"`, a FormatError
for every string outside the three enumerated literals, succeeds exactly
for `"ascii"`, and in every error case the whole store — in particular the
stored CaseMapping — is unchanged. -/
theorem C5_casemapping_errors (s : ServerCapabilities) (v : String) :
    (v = "rfc1459" ∨ v = "strict-rfc1459" →
      casemapping_fset s v = (s, some .unsupportedError)) ∧
    (v ≠ "ascii" ∧ v ≠ "rfc1459" ∧ v ≠ "strict-rfc1459" →
      casemapping_fset s v = (s, some (.formatError "CASEMAPPING"))) ∧
    ((casemapping_fset s v).2 = none ↔ v = "ascii") ∧
    (∀ e, (casemapping_fset s v).2 = some e → (casemapping_fset s v).1 = s) := by
  unfold casemapping_fset parseCasemapping
  by_cases ha : v = "ascii"
  · subst ha
    refine ⟨?_, ?_, ?_, ?_⟩
    · rintro (h | h) <;> exact absurd h (by decide)
    · rintro ⟨h, _⟩; exact absurd rfl h
    · simp
    · intro e he; cases he
  · by_cases hr : v = "rfc1459"
    · subst hr
      refine ⟨?_, ?_, ?_, ?_⟩
      · intro _; rfl
      · rintro ⟨_, h, _⟩; exact absurd rfl h
      · simp
      · intro e _; rfl
    · by_cases hsr : v = "strict-rfc1459"
      · subst hsr
        refine ⟨?_, ?_, ?_, ?_⟩
        · intro _; rfl
        · rintro ⟨_, _, h⟩; exact absurd rfl h
        · simp
        · intro e _; rfl
      · rw [if_neg (by simp [ha, hr, hsr])]
        refine ⟨?_, ?_, ?_, ?_⟩
        · rintro (h | h)
          · exact absurd h hr
          · exact absurd h hsr
        · intro _; rfl
        · simp [ha]
        · intro e _; rfl

/-- C5 witness: on a fresh store, `"rfc1459"` is rejected as unsupported,
`"utf-8"` as malformed, and `"ascii"` is accepted. -/
theorem C5_witness :
    casemapping_fset fresh "rfc1459" = (fresh, some .unsupportedError) ∧
    casemapping_fset fresh "utf-8" = (fresh, some (.formatError "CASEMAPPING")) ∧
    (casemapping_fset fresh "ascii").2 = none :=
  ⟨(C5_casemapping_errors fresh "rfc1459").1 (Or.inl rfl),
   (C5_casemapping_errors fresh "utf-8").2.1 ⟨by decide, by decide, by decide⟩,
   ((C5_casemapping_errors fresh "ascii").2.2.1).mpr rfl⟩

/-- C6: for every field other than ChannelModeGroups, every store state and
every raw value, a `Set` that raises any exception leaves the store exactly
as it was (strong exception safety: each of these setters fully parses and
validates before mutating anything). -/
theorem C6_strong_exception_safety (s : ServerCapabilities) (v : String) :
    ((casemapping_fset s v).2.isSome = true → (casemapping_fset s v).1 = s) ∧
    ((chanlimit_fset s v).2.isSome = true → (chanlimit_fset s v).1 = s) ∧
    ((channellen_fset s v).2.isSome = true → (channellen_fset s v).1 = s) ∧
    ((chantypes_fset s v).2.isSome = true → (chantypes_fset s v).1 = s) ∧
    ((excepts_fset s v).2.isSome = true → (excepts_fset s v).1 = s) ∧
    ((invex_fset s v).2.isSome = true → (invex_fset s v).1 = s) ∧
    ((kicklen_fset s v).2.isSome = true → (kicklen_fset s v).1 = s) ∧
    ((maxlist_fset s v).2.isSome = true → (maxlist_fset s v).1 = s) := by
  refine ⟨?_, ?_, ?_, ?_, ?_, ?_, ?_, ?_⟩
  · unfold casemapping_fset
    cases parseCasemapping v <;> dsimp only
    · exact fun _ => rfl
    · split
      · exact fun _ => rfl
      · exact fun h => absurd h (by simp)
  · unfold chanlimit_fset
    cases parseChanlimitEntries v <;> dsimp only
    · exact fun _ => rfl
    · split
      · exact fun _ => rfl
      · split
        · exact fun h => absurd h (by simp)
        · exact fun _ => rfl
  · unfold channellen_fset
    cases parseOptInt v <;> dsimp only
    · exact fun _ => rfl
    · exact fun h => absurd h (by simp)
  · unfold chantypes_fset chanlimit_get
    cases s._chanlimit <;> dsimp only
    · exact fun h => absurd h (by simp)
    · split
      · exact fun h => absurd h (by simp)
      · split
        · exact fun h => absurd h (by simp)
        · exact fun _ => rfl
  · unfold excepts_fset chanmodes_get
    cases parseFlag "e" v <;> dsimp only
    · exact fun _ => rfl
    · cases s._chanmodes <;> dsimp only
      · exact fun h => absurd h (by simp)
      · split
        · exact fun h => absurd h (by simp)
        · exact fun _ => rfl
  · unfold invex_fset chanmodes_get
    cases parseFlag "I" v <;> dsimp only
    · exact fun _ => rfl
    · cases s._chanmodes <;> dsimp only
      · exact fun h => absurd h (by simp)
      · split
        · exact fun h => absurd h (by simp)
        · exact fun _ => rfl
  · unfold kicklen_fset
    cases parseOptInt v <;> dsimp only
    · exact fun _ => rfl
    · exact fun h => absurd h (by simp)
  · unfold maxlist_fset chanmodes_get
    split
    · exact fun _ => rfl
    · cases parseMaxlistEntries v <;> dsimp only
      · exact fun _ => rfl
      · cases s._chanmodes <;> dsimp only
        · exact fun h => absurd h (by simp)
        · split
          · exact fun h => absurd h (by simp)
          · exact fun _ => rfl

/-- C6 witness: a failing CASEMAPPING assignment leaves a fresh store
untouched. -/
theorem C6_witness : (casemapping_fset fresh "utf-8").1 = fresh :=
  (C6_strong_exception_safety fresh "utf-8").1 (by decide)

/-- C7 counterexample: the claim says strings denoting negative integers
are FormatErrors, but `Set("ChannelNameMaxLen", "-5")` succeeds and stores
`-5` (the setter uses a bare `int(v)` with no sign check). -/
theorem C7_counterexample :
    (channellen_fset fresh "-5").2 = none ∧
    (channellen_fset fresh "-5").1._channellen = some (some (-5)) :=
  ⟨rfl, rfl⟩

/-- C7 amended: `Set("ChannelNameMaxLen", v)` (and `KickReasonMaxLen`)
succeeds exactly when `v` is empty (stored as `None`, unlimited) or parses
as an integer — of either sign; only non-numeric values yield a
FormatError, with the field unchanged. -/
theorem C7_len_amended (s : ServerCapabilities) (v : String) :
    (v = "" →
      channellen_fset s v = ({ s with _channellen := some none }, none) ∧
      kicklen_fset s v = ({ s with _kicklen := some none }, none)) ∧
    (∀ n : Int, v ≠ "" → pyInt v = some n →
      channellen_fset s v = ({ s with _channellen := some (some n) }, none) ∧
      kicklen_fset s v = ({ s with _kicklen := some (some n) }, none)) ∧
    (v ≠ "" → pyInt v = none →
      channellen_fset s v = (s, some (.formatError "CHANNELLEN")) ∧
      kicklen_fset s v = (s, some (.formatError "KICKLEN"))) := by
  unfold channellen_fset kicklen_fset parseOptInt
  refine ⟨?_, ?_, ?_⟩
  · intro hv
    rw [if_pos hv]
    exact ⟨rfl, rfl⟩
  · intro n hv hn
    rw [if_neg hv, hn]
    exact ⟨rfl, rfl⟩
  · intro hv hn
    rw [if_neg hv, hn]
    exact ⟨rfl, rfl⟩

/-- C7 witness: empty means unlimited, `"200"` stores 200, `"abc"` is a
FormatError. -/
theorem C7_witness :
    channellen_fset fresh "" = ({ fresh with _channellen := some none }, none) ∧
    channellen_fset fresh "200" =
      ({ fresh with _channellen := some (some 200) }, none) ∧
    kicklen_fset fresh "abc" = (fresh, some (.formatError "KICKLEN")) :=
  ⟨((C7_len_amended fresh "").1 rfl).1,
   ((C7_len_amended fresh "200").2.1 200 (by decide) rfl).1,
   ((C7_len_amended fresh "abc").2.2 (by decide) rfl).2⟩

/-- C10 counterexample: the claim says deletion of a deletable field always
succeeds, but on a fresh store (where the backing instance attribute was
never set) `del store.chantypes` raises `AttributeError`. -/
theorem C10_counterexample :
    chantypes_fdel fresh = (fresh, some (.attributeError "_chantypes")) := rfl

/-- C10 amended: deleting ChannelPrefixes, ChannelNameMaxLen,
BanExceptionFlag or InviteExceptionFlag succeeds — without any cross-field
validation and changing no other field — exactly when the backing instance
attribute is present (the field was set since the last deletion), and
afterwards the getter reports the class default: `{'#','&'}` for
ChannelPrefixes, `200` for ChannelNameMaxLen, and unset for the two
exception flags.  When the attribute is absent the deletion raises
`AttributeError` and the store is unchanged. -/
theorem C10_deletion_amended (s : ServerCapabilities) :
    ((s._chantypes ≠ none →
        chantypes_fdel s = ({ s with _chantypes := none }, none) ∧
        chantypes_get { s with _chantypes := none } = canonize ['#', '&']) ∧
      (s._chantypes = none →
        chantypes_fdel s = (s, some (.attributeError "_chantypes")))) ∧
    ((s._channellen ≠ none →
        channellen_fdel s = ({ s with _channellen := none }, none) ∧
        channellen_get { s with _channellen := none } = some 200) ∧
      (s._channellen = none →
        channellen_fdel s = (s, some (.attributeError "_channellen")))) ∧
    ((s._excepts ≠ none →
        excepts_fdel s = ({ s with _excepts := none }, none) ∧
        excepts_get { s with _excepts := none } = none) ∧
      (s._excepts = none →
        excepts_fdel s = (s, some (.attributeError "_excepts")))) ∧
    ((s._invex ≠ none →
        invex_fdel s = ({ s with _invex := none }, none) ∧
        invex_get { s with _invex := none } = none) ∧
      (s._invex = none →
        invex_fdel s = (s, some (.attributeError "_invex")))) := by
  refine ⟨⟨?_, ?_⟩, ⟨?_, ?_⟩, ⟨?_, ?_⟩, ⟨?_, ?_⟩⟩
  · intro h
    unfold chantypes_fdel
    cases hc : s._chantypes with
    | none => exact absurd hc h
    | some c => exact ⟨rfl, rfl⟩
  · intro h
    unfold chantypes_fdel
    rw [h]
  · intro h
    unfold channellen_fdel
    cases hc : s._channellen with
    | none => exact absurd hc h
    | some c => exact ⟨rfl, rfl⟩
  · intro h
    unfold channellen_fdel
    rw [h]
  · intro h
    unfold excepts_fdel
    cases hc : s._excepts with
    | none => exact absurd hc h
    | some c => exact ⟨rfl, rfl⟩
  · intro h
    unfold excepts_fdel
    rw [h]
  · intro h
    unfold invex_fdel
    cases hc : s._invex with
    | none => exact absurd hc h
    | some c => exact ⟨rfl, rfl⟩
  · intro h
    unfold invex_fdel
    rw [h]

/-- C10 witness: after setting CHANTYPES, deleting it succeeds and the
getter reverts to the `{'#','&'}` default. -/
theorem C10_witness :
    chantypes_fdel (chantypes_fset fresh "#").1 =
      ({ (chantypes_fset fresh "#").1 with _chantypes := none }, none) ∧
    chantypes_get { (chantypes_fset fresh "#").1 with _chantypes := none } =
      canonize ['#', '&'] :=
  (C10_deletion_amended (chantypes_fset fresh "#").1).1.1 (by decide)

theorem parseChanmodes_none_iff (v : String) :
    parseChanmodes v = none ↔
      (splitOnChar ',' (stripChars v.toList)).length < 4 := by
  unfold parseChanmodes
  rcases hl : splitOnChar ',' (stripChars v.toList) with
    _ | ⟨a, _ | ⟨b, _ | ⟨c, _ | ⟨d, rest⟩⟩⟩⟩ <;>
    simp [List.take]

theorem revalidateExcepts_chanmodes (s : ServerCapabilities) :
    (revalidateExcepts s).1._chanmodes = s._chanmodes := by
  unfold revalidateExcepts excepts_get excepts_fset chanmodes_get
  repeat' split
  all_goals rfl

theorem revalidateInvex_chanmodes (s : ServerCapabilities) :
    (revalidateInvex s).1._chanmodes = s._chanmodes := by
  unfold revalidateInvex invex_get invex_fset chanmodes_get
  repeat' split
  all_goals rfl

theorem revalidateMaxlist_chanmodes (s : ServerCapabilities) :
    (revalidateMaxlist s).1._chanmodes = s._chanmodes := by
  unfold revalidateMaxlist maxlist_get maxlist_fset chanmodes_get
  repeat' split
  all_goals dsimp only
  repeat' split
  all_goals rfl

theorem revalidateDeps_chanmodes (s : ServerCapabilities) :
    (revalidateDeps s).1._chanmodes = s._chanmodes := by
  unfold revalidateDeps
  rcases hx : revalidateExcepts s with ⟨s1, e1⟩
  have h1 : s1._chanmodes = s._chanmodes := by
    rw [← revalidateExcepts_chanmodes s, hx]
  cases e1 with
  | some er => exact h1
  | none =>
    dsimp only [pySeq]
    rcases hy : revalidateInvex s1 with ⟨s2, e2⟩
    have h2 : s2._chanmodes = s1._chanmodes := by
      rw [← revalidateInvex_chanmodes s1, hy]
    cases e2 with
    | some er => exact h2.trans h1
    | none =>
      dsimp only [pySeq]
      rcases hz : revalidateMaxlist s2 with ⟨s3, e3⟩
      have h3 : s3._chanmodes = s2._chanmodes := by
        rw [← revalidateMaxlist_chanmodes s2, hz]
      exact h3.trans (h2.trans h1)

/-- C2 counterexample: the claim says more than 4 comma-separated groups
are rejected as a FormatError, but `Set("ChannelModeGroups", "a,b,c,d,e")`
succeeds — the `[:4]` slice silently drops the fifth group. -/
theorem C2_counterexample :
    (chanmodes_fset fresh "a,b,c,d,e").2 = none ∧
    (chanmodes_fset fresh "a,b,c,d,e").1._chanmodes =
      some (['a'], ['b'], ['c'], ['d']) :=
  ⟨rfl, rfl⟩

/-- C2 amended: `Set("ChannelModeGroups", v)` yields a FormatError exactly
when `v` splits into fewer than 4 comma-separated groups; with 4 or more
groups the first four (each possibly empty) are parsed into the 4-tuple of
character sets and any extra groups are silently discarded — no
FormatError occurs, on success the parsed tuple is stored, and (on a
well-formed store) any failure is a LogicError from dependent
re-validation, not a FormatError. -/
theorem C2_chanmodes_amended (s : ServerCapabilities) (v : String) :
    (parseChanmodes v = none ↔
      (splitOnChar ',' (stripChars v.toList)).length < 4) ∧
    (parseChanmodes v = none →
      chanmodes_fset s v = (s, some (.formatError "CHANMODES"))) ∧
    (∀ m, parseChanmodes v = some m →
      ((chanmodes_fset s v).2 = none →
        (chanmodes_fset s v).1._chanmodes = some m) ∧
      (WFb s = true → ∀ e, (chanmodes_fset s v).2 = some e →
        e.isLogicError = true)) := by
  refine ⟨parseChanmodes_none_iff v, ?_, ?_⟩
  · intro hp
    unfold chanmodes_fset
    rw [hp]
  · intro m hp
    constructor
    · intro hok
      unfold chanmodes_fset at hok ⊢
      rw [hp] at hok ⊢
      try dsimp only at hok
      try dsimp only
      cases herr : (revalidateDeps { s with _chanmodes := some m }).2 with
      | some er =>
        have hpair : revalidateDeps { s with _chanmodes := some m } =
            ((revalidateDeps { s with _chanmodes := some m }).1, some er) :=
          Prod.ext_iff.mpr ⟨rfl, herr⟩
        rw [hpair] at hok
        try dsimp only at hok
        split at hok
        all_goals cases hok
      | none =>
        have hpair : revalidateDeps { s with _chanmodes := some m } =
            ((revalidateDeps { s with _chanmodes := some m }).1, none) :=
          Prod.ext_iff.mpr ⟨rfl, herr⟩
        rw [hpair]
        exact revalidateDeps_chanmodes { s with _chanmodes := some m }
    · intro hw e he
      have hwupd : WFb { s with _chanmodes := some m } = true := hw
      obtain ⟨hr1, hr2, _⟩ := revalidateDeps_wf hwupd
      unfold chanmodes_fset at he
      rw [hp] at he
      try dsimp only at he
      cases herr : (revalidateDeps { s with _chanmodes := some m }).2 with
      | none =>
        have hpair : revalidateDeps { s with _chanmodes := some m } =
            ((revalidateDeps { s with _chanmodes := some m }).1, none) :=
          Prod.ext_iff.mpr ⟨rfl, herr⟩
        rw [hpair] at he
        cases he
      | some er =>
        obtain ⟨c, hc⟩ := hr2 er herr
        subst hc
        have hpair : revalidateDeps { s with _chanmodes := some m } =
            ((revalidateDeps { s with _chanmodes := some m }).1,
              some (.logicError c)) :=
          Prod.ext_iff.mpr ⟨rfl, herr⟩
        rw [hpair] at he
        try dsimp only at he
        split at he
        all_goals
          injection he with he
          subst he
          rfl

/-- C2 witness: a three-group value is a FormatError and leaves the store
unchanged; a four-group value parses and stores the tuple. -/
theorem C2_witness :
    chanmodes_fset fresh "a,b,c" = (fresh, some (.formatError "CHANMODES")) ∧
    (chanmodes_fset fresh "a,b,c,d").1._chanmodes =
      some (['a'], ['b'], ['c'], ['d']) :=
  ⟨(C2_chanmodes_amended fresh "a,b,c").2.1 rfl,
   ((C2_chanmodes_amended fresh "a,b,c,d").2.2
      (['a'], ['b'], ['c'], ['d']) rfl).1 rfl⟩

/-- C8 counterexample: the claim says a non-positive count and a duplicate
entry are FormatErrors, but `Set("ChannelLimitByPrefix", "#:0")` succeeds
(storing count 0) and `"#:5,#:7"` succeeds with the duplicate keys merged,
the last count winning. -/
theorem C8_counterexample :
    (chanlimit_fset fresh "#:0").2 = none ∧
    (chanlimit_fset fresh "#:0").1._chanlimit = some [(['#'], 0)] ∧
    (chanlimit_fset fresh "#:5,#:7").2 = none ∧
    (chanlimit_fset fresh "#:5,#:7").1._chanlimit = some [(['#'], 7)] :=
  ⟨rfl, rfl, rfl, rfl⟩

/-- C8 amended: `Set("ChannelLimitByPrefix", v)` splits `v` on commas and
each stripped entry on `:`, maps the prefix characters to a character set
and parses the count with `int` — any integer, with no positivity check;
a FormatError arises exactly when some entry is malformed (the empty raw
value included, since `""` yields the single malformed entry `""`);
duplicate prefix-sets are not rejected but merged, the last entry winning;
after a successful parse, keys not wholly inside the current
ChannelPrefixes give a LogicError with the store unchanged, and otherwise
the merged dict is stored. -/
theorem C8_chanlimit_amended (s : ServerCapabilities) (v : String) :
    (parseChanlimitEntries v = none →
      chanlimit_fset s v = (s, some (.formatError "CHANLIMIT"))) ∧
    (∀ es, parseChanlimitEntries v = some es →
      ((dictOfList es).all
          (fun kv => kv.1.all (fun c => decide (c ∈ s.chantypes_get))) = true →
        chanlimit_fset s v = ({ s with _chanlimit := some (dictOfList es) }, none)) ∧
      ((dictOfList es).all
          (fun kv => kv.1.all (fun c => decide (c ∈ s.chantypes_get))) = false →
        chanlimit_fset s v = (s, some (.logicError "CHANLIMIT")))) := by
  constructor
  · intro hp
    unfold chanlimit_fset
    rw [hp]
  · intro es hp
    have hne : dictOfList es ≠ [] :=
      dictOfList_ne_nil
        (mapM_option_ne_nil hp (splitOnChar_ne_nil ',' (stripChars v.toList)))
    unfold chanlimit_fset
    rw [hp]
    dsimp only
    rw [if_neg hne]
    constructor
    · intro hall
      rw [if_pos hall]
    · intro hall
      rw [if_neg (by rw [hall]; simp)]

/-- C8 witness: a malformed entry is a FormatError; `"#:10"` is stored
under the default prefixes; `"x:5"` hits the subset check and is a
LogicError. -/
theorem C8_witness :
    chanlimit_fset fresh "nocolon" = (fresh, some (.formatError "CHANLIMIT")) ∧
    chanlimit_fset fresh "#:10" =
      ({ fresh with _chanlimit := some [(['#'], 10)] }, none) ∧
    chanlimit_fset fresh "x:5" = (fresh, some (.logicError "CHANLIMIT")) :=
  ⟨(C8_chanlimit_amended fresh "nocolon").1 rfl,
   ((C8_chanlimit_amended fresh "#:10").2 [(['#'], 10)] rfl).1 rfl,
   ((C8_chanlimit_amended fresh "x:5").2 [(['x'], 5)] rfl).2 rfl⟩

/-- C3 counterexample: the claim says that once ChannelLimitByPrefix is
accepted, a later `Set("ChannelPrefixes", v)` never fails on account of
the existing entries — but after `Set(CHANLIMIT, "#:10")` even widening
the prefixes to `"#&"` (which satisfies I1) raises a
CapabilityLogicError. -/
theorem C3_counterexample :
    (chanlimit_fset fresh "#:10").2 = none ∧
    chantypes_fset (chanlimit_fset fresh "#:10").1 "#&" =
      ((chanlimit_fset fresh "#:10").1, some (.logicError "CHANTYPES")) :=
  ⟨rfl, rfl⟩

/-- C3 amended: the CHANTYPES setter does re-check CHANLIMIT, but the check
on line 147 tests whether each CHANLIMIT key (a frozenset) is an *element*
of the new prefix set instead of a subset of it, which is false for every
key; hence once ChannelLimitByPrefix holds a (necessarily non-empty)
mapping, every `Set("ChannelPrefixes", v)` — for any raw value `v`
whatsoever — fails with a CapabilityLogicError and leaves the store
unchanged. -/
theorem C3_chantypes_amended (s : ServerCapabilities) (v : String)
    (d : CSDict) (h1 : s._chanlimit = some d) (h2 : d ≠ []) :
    chantypes_fset s v = (s, some (.logicError "CHANTYPES")) := by
  unfold chantypes_fset chanlimit_get
  rw [h1]
  dsimp only
  have hemp : d.isEmpty = false := by
    cases d with
    | nil => exact absurd rfl h2
    | cons kv rest => rfl
  rw [if_neg (by rw [hemp]; simp)]
  rw [if_neg ?hall]
  case hall =>
    cases d with
    | nil => exact absurd rfl h2
    | cons kv rest => simp [charEqSet]

/-- C3 witness: the amended claim applied after `Set(CHANLIMIT, "#:10")`. -/
theorem C3_witness :
    chantypes_fset (chanlimit_fset fresh "#:10").1 "#" =
      ((chanlimit_fset fresh "#:10").1, some (.logicError "CHANTYPES")) :=
  C3_chantypes_amended (chanlimit_fset fresh "#:10").1 "#" [(['#'], 10)]
    rfl (by decide)

/-- C9: with ChannelModeGroups set and a raw value that parses as a
flagchars-to-count mapping, `Set("ListLimitByFlags", v)` succeeds exactly
when the union of the parsed keys equals ChannelModeGroups[List] as a set
— equality in both directions, not mere inclusion; on a mismatch it
returns a LogicError and the store is unchanged, and on success the parsed
dict is stored. -/
theorem C9_maxlist_exact (s : ServerCapabilities) (v : String)
    (m : ChanModes) (es : List (CharSet × Int))
    (hm : s._chanmodes = some m) (hv : v ≠ "")
    (hp : parseMaxlistEntries v = some es) :
    ((maxlist_fset s v).2 = none ↔
      isSetEq (unionKeys (dictOfList es)) m.1 = true) ∧
    (isSetEq (unionKeys (dictOfList es)) m.1 = true →
      maxlist_fset s v = ({ s with _maxlist := some (dictOfList es) }, none)) ∧
    (isSetEq (unionKeys (dictOfList es)) m.1 = false →
      maxlist_fset s v = (s, some (.logicError "MAXLIST"))) := by
  unfold maxlist_fset chanmodes_get
  rw [if_neg hv, hp]
  dsimp only
  rw [hm]
  dsimp only
  by_cases hset : isSetEq (unionKeys (dictOfList es)) m.1 = true
  · rw [if_pos hset]
    refine ⟨by simp [hset], fun _ => rfl, ?_⟩
    intro hfalse
    rw [hset] at hfalse
    cases hfalse
  · rw [if_neg hset]
    refine ⟨?_, ?_, fun _ => rfl⟩
    · constructor
      · intro h0; cases h0
      · intro h0; exact absurd h0 hset
    · intro h0; exact absurd h0 hset

/-- C9 witness: with groups `"a,b,c,d"`, `"b:25"` is a LogicError (union
`{b}` differs from `{a}`) and `"a:25"` succeeds. -/
theorem C9_witness :
    maxlist_fset (chanmodes_fset fresh "a,b,c,d").1 "b:25" =
      ((chanmodes_fset fresh "a,b,c,d").1, some (.logicError "MAXLIST")) ∧
    maxlist_fset (chanmodes_fset fresh "a,b,c,d").1 "a:25" =
      ({ (chanmodes_fset fresh "a,b,c,d").1 with
          _maxlist := some [(['a'], 25)] }, none) :=
  ⟨(C9_maxlist_exact (chanmodes_fset fresh "a,b,c,d").1 "b:25"
      (['a'], ['b'], ['c'], ['d']) [(['b'], 25)] rfl (by decide) rfl).2.2 rfl,
   (C9_maxlist_exact (chanmodes_fset fresh "a,b,c,d").1 "a:25"
      (['a'], ['b'], ['c'], ['d']) [(['a'], 25)] rfl (by decide) rfl).2.1 rfl⟩

/-- C1: if `Set("ChannelModeGroups", v)` parses `v` into a 4-tuple but the
re-validation of the already-set dependent fields (BanExceptionFlag,
InviteExceptionFlag, ListLimitByFlags) against the tentative new tuple
fails, then the call returns that CapabilityLogicError and the store
afterwards — `Get(ChannelModeGroups)` and every dependent field included —
is exactly what it was before the call: the tentative value is rolled
back.  Stated for every well-formed store state (`WFb`), which covers
every reachable state by `reachable_wf_inv`. -/
theorem C1_chanmodes_rollback (s : ServerCapabilities) (v : String)
    (m : ChanModes) (err : CapError) (hw : WFb s = true)
    (hp : parseChanmodes v = some m)
    (hr : (revalidateDeps { s with _chanmodes := some m }).2 = some err) :
    err.isLogicError = true ∧ chanmodes_fset s v = (s, some err) := by
  have hwupd : WFb { s with _chanmodes := some m } = true := hw
  obtain ⟨hr1, hr2, _⟩ := revalidateDeps_wf hwupd
  obtain ⟨c, hc⟩ := hr2 err hr
  subst hc
  refine ⟨rfl, ?_⟩
  unfold chanmodes_fset
  rw [hp]
  dsimp only
  have hpair : revalidateDeps { s with _chanmodes := some m } =
      ({ s with _chanmodes := some m }, some (.logicError c)) :=
    Prod.ext_iff.mpr ⟨hr1, hr⟩
  rw [hpair]
  rfl

/-- C1 witness: with mode groups `"a,b,c,d"` and BanExceptionFlag `"a"`
accepted, re-setting the groups to `"x,y,z,w"` propagates the LogicError
raised while re-validating EXCEPTS, and the old groups and flag survive. -/
theorem C1_witness :
    (CapError.logicError "EXCEPTS").isLogicError = true ∧
    chanmodes_fset (excepts_fset (chanmodes_fset fresh "a,b,c,d").1 "a").1
        "x,y,z,w" =
      ((excepts_fset (chanmodes_fset fresh "a,b,c,d").1 "a").1,
        some (.logicError "EXCEPTS")) :=
  C1_chanmodes_rollback
    (excepts_fset (chanmodes_fset fresh "a,b,c,d").1 "a").1 "x,y,z,w"
    (['x'], ['y'], ['z'], ['w']) (.logicError "EXCEPTS") (by decide) rfl rfl

/-- C4 counterexample: re-setting a field to its currently-effective value
can fail.  After `Set(CHANLIMIT, "#:10")` the effective ChannelPrefixes is
still the default `{'#','&'}`, yet `Set(CHANTYPES, "#&")` — whose parse is
exactly that effective value — raises a LogicError.  Likewise, after
setting CHANTYPES to `{'#','&','x'}`, accepting CHANLIMIT `"x:5"` and
deleting CHANTYPES, re-setting CHANLIMIT to its stored value `"x:5"`
raises a LogicError. -/
theorem C4_counterexample :
    (chanlimit_fset fresh "#:10").2 = none ∧
    canonize "#&".toList =
      ServerCapabilities.chantypes_get (chanlimit_fset fresh "#:10").1 ∧
    (chantypes_fset (chanlimit_fset fresh "#:10").1 "#&").2 =
      some (.logicError "CHANTYPES") ∧
    (chantypes_fset fresh "#&x").2 = none ∧
    (chanlimit_fset (chantypes_fset fresh "#&x").1 "x:5").2 = none ∧
    (chantypes_fdel
        (chanlimit_fset (chantypes_fset fresh "#&x").1 "x:5").1).2 = none ∧
    ServerCapabilities.chanlimit_get
        (chantypes_fdel
          (chanlimit_fset (chantypes_fset fresh "#&x").1 "x:5").1).1 =
      some [(['x'], 5)] ∧
    (chanlimit_fset
        (chantypes_fdel
          (chanlimit_fset (chantypes_fset fresh "#&x").1 "x:5").1).1 "x:5").2 =
      some (.logicError "CHANLIMIT") :=
  ⟨rfl, rfl, rfl, rfl, rfl, rfl, rfl, rfl⟩

/-- C4 amended: for every reachable store state, re-setting any field
other than ChannelPrefixes and ChannelLimitByPrefix to a raw value whose
parse equals the field's currently-effective value succeeds with no error.
(ChannelPrefixes always fails with a LogicError once ChannelLimitByPrefix
is set, and ChannelLimitByPrefix can fail after ChannelPrefixes is deleted
back to its default — see the counterexample.) -/
theorem C4_reset_amended (s : ServerCapabilities) (h : Reachable s) :
    (∀ v, parseCasemapping v = some (casemapping_get s) →
      (casemapping_fset s v).2 = none) ∧
    (∀ v m, parseChanmodes v = some m → s._chanmodes = some m →
      (chanmodes_fset s v).2 = none) ∧
    (∀ v, parseOptInt v = some (channellen_get s) →
      (channellen_fset s v).2 = none) ∧
    (∀ v, parseOptInt v = some (kicklen_get s) →
      (kicklen_fset s v).2 = none) ∧
    (∀ v e, parseFlag "e" v = some e → s._excepts = some e →
      (excepts_fset s v).2 = none) ∧
    (∀ v i, parseFlag "I" v = some i → s._invex = some i →
      (invex_fset s v).2 = none) ∧
    (∀ v es, v ≠ "" → parseMaxlistEntries v = some es →
      s._maxlist = some (dictOfList es) → (maxlist_fset s v).2 = none) := by
  obtain ⟨hw, hi⟩ := reachable_wf_inv h
  refine ⟨?_, ?_, ?_, ?_, ?_, ?_, ?_⟩
  · intro v hv
    have hget : casemapping_get s = "ascii" := by
      unfold casemapping_get
      cases hc : s._casemapping with
      | none => rfl
      | some c => rw [(WFb_spec hw).1 c hc]; rfl
    rw [hget] at hv
    unfold parseCasemapping at hv
    split at hv
    · injection hv with hv
      subst hv
      rfl
    · cases hv
  · intro v m hp hm
    unfold chanmodes_fset
    rw [hp]
    dsimp only
    rw [set_chanmodes_self hm, revalidateDeps_ok hw hi]
  · intro v hv
    unfold channellen_fset
    rw [hv]
  · intro v hv
    unfold kicklen_fset
    rw [hv]
  · intro v e hp he
    unfold excepts_fset chanmodes_get
    rw [hp]
    dsimp only
    cases hm : s._chanmodes with
    | none => rfl
    | some m =>
      dsimp only
      rw [if_pos (((Invb_spec hi) m hm).1 e he)]
  · intro v i hp hiv
    unfold invex_fset chanmodes_get
    rw [hp]
    dsimp only
    cases hm : s._chanmodes with
    | none => rfl
    | some m =>
      dsimp only
      rw [if_pos (((Invb_spec hi) m hm).2.1 i hiv)]
  · intro v es hv hp hd
    unfold maxlist_fset chanmodes_get
    rw [if_neg hv, hp]
    dsimp only
    cases hm : s._chanmodes with
    | none => rfl
    | some m =>
      dsimp only
      rw [if_pos (((Invb_spec hi) m hm).2.2 (dictOfList es) hd)]

/-- C4 witness: on a fresh (reachable) store, re-setting CaseMapping to
its effective `"ascii"` and ChannelNameMaxLen to its effective `200`
succeeds, as does re-setting the mode groups after they were accepted. -/
theorem C4_witness :
    (casemapping_fset fresh "ascii").2 = none ∧
    (channellen_fset fresh "200").2 = none ∧
    (chanmodes_fset (chanmodes_fset fresh "a,b,c,d").1 "a,b,c,d").2 = none :=
  ⟨(C4_reset_amended fresh Reachable.init).1 "ascii" rfl,
   (C4_reset_amended fresh Reachable.init).2.2.1 "200" rfl,
   (C4_reset_amended (chanmodes_fset fresh "a,b,c,d").1
      (Reachable.set_chanmodes Reachable.init)).2.1 "a,b,c,d"
      (['a'], ['b'], ['c'], ['d']) rfl rfl⟩

end Pyirc
